import Mathlib

/-!
Verification development for the vertex-level orchestration engine
(`src/vertex_orchestrator.py`): a shallow embedding of the lazy algorithm
loader/cache, the cascading/compounding execution engine, the priority task
queue, vertex management and the resource monitor, together with theorems
about the behaviours the design document ascribes to them.

Modelling conventions:
* Python dicts are insertion-ordered; we model them as association lists
  with Python's update-in-place-or-append semantics (`dinsert`).
* Wall-clock timestamps (`time.time()`) are modelled by a `Nat` parameter
  threaded into each operation; real time is nondecreasing but calls may
  observe the same timestamp, so no monotonicity is baked in.
* Python floats are modelled by `ℚ` (the arithmetic performed by the code —
  averaging, weighted sums of small values — is exact at the granularity the
  claims speak about).
* Exceptions are modelled by `Except`/`Option` results; `logger` calls at
  error level are modelled as an explicit event trace where a claim talks
  about them.
-/

namespace VertexOrchestration

/-! ### Python-dict style association lists -/

/-- Lookup in an insertion-ordered association list (Python `d[k]` / `k in d`). -/
def dlookup {α : Type} (k : String) : List (String × α) → Option α
  | [] => none
  | (k1, v) :: rest => if k1 = k then some v else dlookup k rest

/-- Membership test (Python `k in d`). -/
def dcontains {α : Type} (k : String) (d : List (String × α)) : Bool :=
  (dlookup k d).isSome

/-- Python `d[k] = v`: overwrite in place if the key is present, else append
(insertion order is preserved, which matters for `min` over `d.items()`). -/
def dinsert {α : Type} (k : String) (v : α) : List (String × α) → List (String × α)
  | [] => [(k, v)]
  | (k1, v1) :: rest => if k1 = k then (k1, v) :: rest else (k1, v1) :: dinsert k v rest

/-- Python `del d[k]` (no-op when the key is absent; the code always guards). -/
def derase {α : Type} (k : String) : List (String × α) → List (String × α)
  | [] => []
  | (k1, v1) :: rest => if k1 = k then rest else (k1, v1) :: derase k rest

/-- Update the value at a key in place, when present. -/
def dmodify {α : Type} (k : String) (f : α → α) : List (String × α) → List (String × α)
  | [] => []
  | (k1, v1) :: rest => if k1 = k then (k1, f v1) :: rest else (k1, v1) :: dmodify k f rest

/-- Keys of the dict, in insertion order. -/
def dkeys {α : Type} (d : List (String × α)) : List String := d.map Prod.fst

/-- Python `min(items, key=...)`: the first item attaining the minimal key,
for an arbitrary decidable total preorder `le` on keys (`min` keeps the
current candidate on ties, so the earliest minimal item wins). -/
def minByFirst {α κ : Type} (le : κ → κ → Bool) (key : α → κ) : List α → Option α
  | [] => none
  | a :: rest =>
    match minByFirst le key rest with
    | none => some a
    | some b => if le (key a) (key b) then some a else some b

/-! ### Values, algorithm instances, factories -/

/-- Payloads and results flowing through the system (the Python code is
dynamically typed; the claims only need to distinguish numerics — Python
`int`/`float`, tested by `isinstance(v, (int, float))` — from everything
else, plus the `None` sentinel used for failed compound members). -/
inductive Value : Type
  | num (q : ℚ)
  | str (s : String)
  | null
  deriving DecidableEq, Repr

/-- A loaded algorithm instance, as consumed by
`CascadingAlgorithmEngine._execute_algorithm`: either an object with an
`execute` method, a plain callable, or neither (which makes execution raise).
Execution itself may raise, modelled by `Except String`. -/
inductive Algorithm : Type
  | withExecute (f : Value → Except String Value)
  | plainCallable (f : Value → Except String Value)
  | notCallable (tag : String)

/-- A registered algorithm factory (`algorithm_func` in
`register_algorithm`): called with no arguments at load time; may raise.
The `Nat` argument is the time of the call, letting a factory fail on one
attempt and succeed on a later retry, as real stateful factories can. -/
def Factory : Type := Nat → Except String Algorithm

/-- Priority levels (`AlgorithmPriority`, values 1–5). -/
inductive AlgorithmPriority : Type
  | critical | high | medium | low | background
  deriving DecidableEq, Repr

/-- Numeric value of a priority (`priority.value` in the Python enum). -/
def AlgorithmPriority.pvalue : AlgorithmPriority → Nat
  | .critical => 1
  | .high => 2
  | .medium => 3
  | .low => 4
  | .background => 5

/-- Algorithm categories (`AlgorithmType`). -/
inductive AlgorithmType : Type
  | predictive | learning | causal | recursiveT | optimization
  | patternRecognition | decisionMaking | memoryManagement
  deriving DecidableEq, Repr

/-- Metadata record (`AlgorithmMetadata` dataclass). Timestamps are `Nat`
clock values; floats are `ℚ`. -/
structure AlgorithmMetadata : Type where
  algorithm_id : String
  algorithm_type : AlgorithmType
  priority : AlgorithmPriority
  resource_requirements : List (String × ℚ) := []
  dependencies : List String := []
  execution_time_avg : ℚ := 0
  success_rate : ℚ := 1
  last_used : Nat
  usage_count : Nat := 0
  memory_footprint : Nat := 0
  cpu_intensity : ℚ := 1
  cascading_potential : ℚ := 0
  compounding_factor : ℚ := 1

/-! ### The lazy algorithm loader (`LazyAlgorithmLoader`) -/

/-- Loader state: cache, metadata and registry dicts plus the configured
capacity. The `access_history` deque is appended to but never read anywhere
in the module, and the `load_lock` only serialises the mutations we model
atomically, so neither carries observable state. -/
structure LazyAlgorithmLoader : Type where
  max_cache_size : Nat := 100
  algorithm_cache : List (String × Algorithm) := []
  algorithm_metadata : List (String × AlgorithmMetadata) := []
  algorithm_registry : List (String × Factory) := []

/-- Events emitted through `logger` by the loader paths the claims talk
about (`logger.error` for the two failure modes, `logger.info` otherwise). -/
inductive LogEvent : Type
  | notRegistered (id : String)
  | loadFailure (id : String) (e : String)
  | loaded (id : String)
  | evicted (id : String)
  deriving DecidableEq, Repr

/-- Result of one `load_algorithm` call: the returned value (`None` on
failure), the post-state, and the emitted log events. -/
structure LoadOutcome : Type where
  result : Option Algorithm
  state : LazyAlgorithmLoader
  log : List LogEvent

/-- Registration (`register_algorithm`): binds factory and metadata, last
registration wins; does not instantiate. -/
def register_algorithm (id : String) (f : Factory) (m : AlgorithmMetadata)
    (s : LazyAlgorithmLoader) : LazyAlgorithmLoader :=
  { s with
    algorithm_registry := dinsert id f s.algorithm_registry
    algorithm_metadata := dinsert id m s.algorithm_metadata }

/-- Touch a metadata record: set the last-used timestamp to now and bump the
use count (the body of `_update_access_stats`). -/
def touchMetadata (t : Nat) (m : AlgorithmMetadata) : AlgorithmMetadata :=
  { m with last_used := t, usage_count := m.usage_count + 1 }

/-- Access-statistics update (`_update_access_stats`): applies
`touchMetadata` when metadata exists for the id, else does nothing. -/
def update_access_stats (t : Nat) (id : String) (s : LazyAlgorithmLoader) :
    LazyAlgorithmLoader :=
  { s with algorithm_metadata := dmodify id (touchMetadata t) s.algorithm_metadata }

/-- Eviction key used by `_evict_least_used`: `min` over `algorithm_metadata
.items()` with key `last_used` for cached ids and `float('inf')` for
uncached ones, modelled lexicographically as `(0, last_used)` versus
`(1, 0)`. -/
def evictKey (cache : List (String × Algorithm)) (p : String × AlgorithmMetadata) :
    Nat × Nat :=
  if dcontains p.1 cache then (0, p.2.last_used) else (1, 0)

/-- Lexicographic non-strict order on `Nat × Nat` key pairs. -/
def pairLE (a b : Nat × Nat) : Bool :=
  a.1 < b.1 || (a.1 = b.1 && a.2 ≤ b.2)

/-- Least-recently-used eviction (`_evict_least_used`): no-op on an empty
cache; otherwise delete the metadata entry minimising the eviction key from
the cache, provided it is cached. (The `min` over an empty metadata dict
would raise in Python, but every cached id has metadata in any reachable
state, so that branch is unreachable; we model it as a no-op.) -/
def evict_least_used (s : LazyAlgorithmLoader) :
    LazyAlgorithmLoader × List LogEvent :=
  if s.algorithm_cache.isEmpty then (s, [])
  else
    match minByFirst pairLE (evictKey s.algorithm_cache) s.algorithm_metadata with
    | none => (s, [])
    | some p =>
      if dcontains p.1 s.algorithm_cache then
        ({ s with algorithm_cache := derase p.1 s.algorithm_cache }, [.evicted p.1])
      else (s, [])

/-- Lazy load (`load_algorithm`): cache hit returns the cached instance and
updates access stats; an unregistered id logs and returns `None`; otherwise
eviction runs first when the cache is at capacity, then the factory is
invoked — on success the instance is cached and stats updated, on a raise
the failure is logged and `None` returned (note the eviction is not rolled
back). -/
def load_algorithm (t : Nat) (id : String) (s : LazyAlgorithmLoader) : LoadOutcome :=
  match dlookup id s.algorithm_cache with
  | some alg => { result := some alg, state := update_access_stats t id s, log := [] }
  | none =>
    match dlookup id s.algorithm_registry with
    | none => { result := none, state := s, log := [.notRegistered id] }
    | some factory =>
      let es : LazyAlgorithmLoader × List LogEvent :=
        if s.max_cache_size ≤ s.algorithm_cache.length then evict_least_used s
        else (s, [])
      match factory t with
      | .error e =>
        { result := none, state := es.1, log := es.2 ++ [.loadFailure id e] }
      | .ok alg =>
        { result := some alg
          state := update_access_stats t id
            { es.1 with algorithm_cache := dinsert id alg es.1.algorithm_cache }
          log := es.2 ++ [.loaded id] }

/-! ### The cascading/compounding engine (`CascadingAlgorithmEngine`) -/

/-- Engine state. The `execution_graph` adjacency dict and `result_cache`
are written by `define_cascade_chain` but never read anywhere in the module,
so they carry no observable state and are omitted. -/
structure CascadingAlgorithmEngine : Type where
  cascade_chains : List (String × List String) := []
  compound_groups : List (String × List String) := []

/-- Graph-level failures (`ValueError` raised on an undefined chain/group). -/
inductive GraphError : Type
  | undefinedChain (id : String)
  | undefinedGroup (id : String)
  deriving DecidableEq, Repr

/-- Chain definition (`define_cascade_chain`): stores the sequence,
overwriting any prior definition with the same id. -/
def define_cascade_chain (chain_id : String) (seq : List String)
    (eng : CascadingAlgorithmEngine) : CascadingAlgorithmEngine :=
  { eng with cascade_chains := dinsert chain_id seq eng.cascade_chains }

/-- Group definition (`define_compound_group`). -/
def define_compound_group (group_id : String) (grp : List String)
    (eng : CascadingAlgorithmEngine) : CascadingAlgorithmEngine :=
  { eng with compound_groups := dinsert group_id grp eng.compound_groups }

/-- Shared invocation primitive (`_execute_algorithm`): call `execute` if the
instance has one, else call it directly if callable, else raise. -/
def execute_algorithm (alg : Algorithm) (v : Value) : Except String Value :=
  match alg with
  | .withExecute f => f v
  | .plainCallable f => f v
  | .notCallable _ => .error "Algorithm must be callable or have execute method"

/-- One load-then-execute step against the current payload. This is both
the loop body of `execute_cascade` and the per-member body of
`execute_compound` (`_execute_compound_algorithm` as observed through
`asyncio.gather(..., return_exceptions=True)`): a load failure (`None`
result, or the `RuntimeError` raised for the compound path) and an
execution raise both yield `none`, a success yields `some result`; the
loader state is whatever the load attempt left behind. -/
def runMember (t : Nat) (aid : String) (v : Value) (s : LazyAlgorithmLoader) :
    Option Value × LazyAlgorithmLoader :=
  let o := load_algorithm t aid s
  match o.result with
  | none => (none, o.state)
  | some alg =>
    match execute_algorithm alg v with
    | .error _ => (none, o.state)
    | .ok r => (some r, o.state)

/-- The loop of `execute_cascade` over a stage sequence: run each stage on
the current payload and replace the payload with its result; `break`
(returning the current payload) on a load failure or an execution raise. -/
def runStages (t : Nat) : List String → Value → LazyAlgorithmLoader →
    Value × LazyAlgorithmLoader
  | [], v, s => (v, s)
  | aid :: rest, v, s =>
    match runMember t aid v s with
    | (none, s1) => (v, s1)
    | (some v1, s1) => runStages t rest v1 s1

/-- Cascade execution (`execute_cascade`): raises only for an undefined
chain id; otherwise best-effort folds the payload through the stages. -/
def execute_cascade (t : Nat) (eng : CascadingAlgorithmEngine) (chain_id : String)
    (initial_data : Value) (loader : LazyAlgorithmLoader) :
    Except GraphError (Value × LazyAlgorithmLoader) :=
  match dlookup chain_id eng.cascade_chains with
  | none => .error (.undefinedChain chain_id)
  | some seq => .ok (runStages t seq initial_data loader)

/-- All members of a compound group, in group order (the `gather` result
list preserves member order; member loads are modelled sequentially at one
timestamp — interleaving only reorders cache bookkeeping, and each member's
value depends only on the registry, the shared cache contents and the common
call time). -/
def runMembers (t : Nat) : List String → Value → LazyAlgorithmLoader →
    List (String × Option Value) × LazyAlgorithmLoader
  | [], _, s => ([], s)
  | aid :: rest, v, s =>
    let ro := runMember t aid v s
    let rest_o := runMembers t rest v ro.2
    ((aid, ro.1) :: rest_o.1, rest_o.2)

/-- Sentinel mapping used when building `compound_result`: a failed member
maps to Python `None`, a successful one to its value. -/
def sentinel : Option Value → Value
  | none => Value.null
  | some v => v

/-- Builds the `compound_result` dict: `compound_result[aid] = result or
None`, in member order (a duplicated member id overwrites in place, as a
Python dict does). -/
def compoundResultMap (pairs : List (String × Option Value)) : List (String × Value) :=
  pairs.foldl (fun acc p => dinsert p.1 (sentinel p.2) acc) []

/-- Numeric subset of the results (`isinstance(v, (int, float))` filter),
keeping dict order. -/
def numericalResults (results : List (String × Value)) : List (String × ℚ) :=
  results.filterMap (fun p =>
    match p.2 with
    | .num q => some (p.1, q)
    | _ => none)

/-- Merge step (`_apply_compounding_enhancement`): with equal weights `1.0`,
`sum(v * w / total)` over the numeric results is their arithmetic mean,
stored under `compound_numerical`; then `enhanced.update(results)` lays all
original entries over it. -/
def apply_compounding_enhancement (results : List (String × Value)) :
    List (String × Value) :=
  let nr := numericalResults results
  let enhanced : List (String × Value) :=
    if nr.isEmpty then []
    else
      let total : ℚ := (nr.length : ℚ)
      if 0 < total then
        [("compound_numerical", Value.num ((nr.map Prod.snd).sum / total))]
      else []
  results.foldl (fun acc p => dinsert p.1 p.2 acc) enhanced

/-- The numeric outcome of one member run, when it succeeded with a numeric
value (used to state which member results enter the aggregate mean). -/
def numericOutcome (p : String × Option Value) : Option ℚ :=
  match p.2 with
  | some (Value.num q) => some q
  | _ => none

/-- Compound execution (`execute_compound`): raises only for an undefined
group id; otherwise runs every member against the same payload, maps
failures to `None`, and applies the compounding merge. -/
def execute_compound (t : Nat) (eng : CascadingAlgorithmEngine) (group_id : String)
    (data : Value) (loader : LazyAlgorithmLoader) :
    Except GraphError (List (String × Value) × LazyAlgorithmLoader) :=
  match dlookup group_id eng.compound_groups with
  | none => .error (.undefinedGroup group_id)
  | some members =>
    let ro := runMembers t members data loader
    .ok (apply_compounding_enhancement (compoundResultMap ro.1), ro.2)

/-! ### Vertices, the priority queue and the orchestrator -/

/-- A vertex node (`VertexNode` dataclass). -/
structure VertexNode : Type where
  vertex_id : String
  algorithms : List String := []
  connections : List String := []
  state : List (String × Value) := []
  load_factor : ℚ := 0
  active_tasks : Nat := 0
  max_capacity : Nat := 10
  deriving DecidableEq, Repr

/-- A queued task descriptor (`task_data` dict built by `execute_task`). -/
structure TaskData : Type where
  task_id : String
  algorithm_id : String
  data : Value
  vertex_id : String
  timestamp : Nat
  deriving DecidableEq, Repr

/-- One entry of the `asyncio.PriorityQueue`:
`(priority.value, task_counter, task_data)`. -/
structure QEntry : Type where
  priority : Nat
  counter : Nat
  task : TaskData
  deriving DecidableEq, Repr

/-- Resource monitor state (`ResourceMonitor`): percentages as sampled. -/
structure ResourceMonitor : Type where
  cpu_usage : ℚ := 0
  memory_usage : ℚ := 0
  network_usage : ℚ := 0
  disk_usage : ℚ := 0
  deriving DecidableEq, Repr

/-- Metric refresh (`ResourceMonitor.update_metrics`): store the psutil
CPU/memory percentages when sampling is available, else fall back to the
hard-coded defaults `50.0` and `60.0`. -/
def update_metrics (sample : Option (ℚ × ℚ)) (m : ResourceMonitor) : ResourceMonitor :=
  match sample with
  | some s => { m with cpu_usage := s.1, memory_usage := s.2 }
  | none => { m with cpu_usage := 50, memory_usage := 60 }

/-- Orchestrator state (`VertexOrchestrator`). The `active_tasks` future
table, worker task handles and the performance tracker hold no state the
claims observe and are omitted; `task_counter` models the `_task_counter`
attribute (`getattr` default `0`). -/
structure VertexOrchestratorState : Type where
  max_concurrent_tasks : Nat := 50
  vertices : List (String × VertexNode) := []
  algorithm_loader : LazyAlgorithmLoader := {}
  cascade_engine : CascadingAlgorithmEngine := {}
  task_queue : List QEntry := []
  task_counter : Nat := 0
  resource_monitor : ResourceMonitor := {}

/-- Vertex creation (`create_vertex`): builds a fresh node and stores it
under the id unconditionally (a pre-existing node under the same id is
overwritten), returning the node. -/
def create_vertex (vertex_id : String) (max_capacity : Nat)
    (st : VertexOrchestratorState) : VertexNode × VertexOrchestratorState :=
  let v : VertexNode := { vertex_id := vertex_id, max_capacity := max_capacity }
  (v, { st with vertices := dinsert vertex_id v st.vertices })

/-- Orchestrator-level failures observable in the modelled fragment:
`ZeroDivisionError` raised while evaluating the vertex-selection key. -/
inductive OrchestratorError : Type
  | zeroDivision
  deriving DecidableEq, Repr

/-- Selection key for `_select_optimal_vertex`:
`load_factor + active_tasks / max_capacity` (true division). -/
def selectionKey (v : VertexNode) : ℚ :=
  v.load_factor + (v.active_tasks : ℚ) / (v.max_capacity : ℚ)

/-- Non-strict order on rational keys, for `min(..., key=...)`. -/
def ratLE (a b : ℚ) : Bool := a ≤ b

/-- Vertex selection (`_select_optimal_vertex`): creates and returns the
default vertex when none exist; otherwise takes the minimum of the selection
key over all vertices — Python evaluates the key on every vertex, so any
vertex with `max_capacity = 0` makes the whole call raise
`ZeroDivisionError`. -/
def select_optimal_vertex (st : VertexOrchestratorState) :
    Except OrchestratorError (String × VertexOrchestratorState) :=
  if st.vertices.isEmpty then
    let cvo := create_vertex "default_vertex" 10 st
    .ok ("default_vertex", cvo.2)
  else if st.vertices.any (fun p => p.2.max_capacity = 0) then
    .error .zeroDivision
  else
    match minByFirst ratLE (fun p => selectionKey p.2) st.vertices with
    | none => .error .zeroDivision
    | some p => .ok (p.1, st)

/-- The synchronous enqueue prefix of `execute_task` (up to the `await` on
the result future): select a vertex when none was given, build the task
descriptor, and push `(priority.value, task_counter, task_data)` with the
monotonically incremented counter. -/
def execute_task_enqueue (task_id algorithm_id : String) (data : Value)
    (priority : AlgorithmPriority) (vertex_id : Option String) (t : Nat)
    (st : VertexOrchestratorState) :
    Except OrchestratorError VertexOrchestratorState :=
  let sel : Except OrchestratorError (String × VertexOrchestratorState) :=
    match vertex_id with
    | some vid => .ok (vid, st)
    | none => select_optimal_vertex st
  match sel with
  | .error e => .error e
  | .ok vs =>
    let td : TaskData :=
      { task_id := task_id, algorithm_id := algorithm_id, data := data
        vertex_id := vs.1, timestamp := t }
    let c := vs.2.task_counter
    .ok { vs.2 with
      task_counter := c + 1
      task_queue := vs.2.task_queue ++ [{ priority := priority.pvalue, counter := c, task := td }] }

/-- Heap order on queue entries: lexicographic on
`(priority, counter)` — the task counter is unique per entry, which is
exactly why the code inserts it ("unique counter to avoid comparison
issues"), so the third tuple component is never compared. -/
def entryLE (a b : QEntry) : Bool :=
  a.priority < b.priority ||
    (a.priority = b.priority && a.counter ≤ b.counter)

/-- Pop of the `asyncio.PriorityQueue` (a binary heap over the entry
tuples): removes a minimal entry; with unique counters the minimum is
unique, so heap nondeterminism does not matter and we take the first. -/
def popMin : List QEntry → Option (QEntry × List QEntry)
  | [] => none
  | e :: es =>
    match popMin es with
    | none => some (e, [])
    | some mr => if entryLE e mr.1 then some (e, es) else some (mr.1, e :: mr.2)

/-- Dequeue order of a single worker draining the queue with no contention:
repeatedly pop the minimal entry (fuel bounded by the queue length, which
`popMin` decreases by one each round). -/
def drainFuel : Nat → List QEntry → List QEntry
  | 0, _ => []
  | n + 1, q =>
    match popMin q with
    | none => []
    | some er => er.1 :: drainFuel n er.2

/-- Full drain of the queue. -/
def drainQueue (q : List QEntry) : List QEntry := drainFuel q.length q

/-- The body of one resource-monitor tick (`_monitor_resources` loop):
refresh the metrics, then set every vertex's load factor to the mean of the
CPU and memory percentages. -/
def monitor_tick (sample : Option (ℚ × ℚ)) (st : VertexOrchestratorState) :
    VertexOrchestratorState :=
  let m := update_metrics sample st.resource_monitor
  { st with
    resource_monitor := m
    vertices := st.vertices.map (fun p =>
      (p.1, { p.2 with load_factor := (m.cpu_usage + m.memory_usage) / 2 })) }

/-! ### Operation sequences and loader invariants -/

/-- One external operation against the loader, for the "any sequence of
register and load operations" claims. -/
inductive LoaderOp : Type
  | reg (id : String) (f : Factory) (m : AlgorithmMetadata)
  | load (t : Nat) (id : String)

/-- Apply one operation (a load's return value is irrelevant to the state
invariants). -/
def applyOp (op : LoaderOp) (s : LazyAlgorithmLoader) : LazyAlgorithmLoader :=
  match op with
  | .reg id f m => register_algorithm id f m s
  | .load t id => (load_algorithm t id s).state

/-- Apply a whole operation sequence, left to right. -/
def applyOps (ops : List LoaderOp) (s : LazyAlgorithmLoader) : LazyAlgorithmLoader :=
  ops.foldl (fun s1 op => applyOp op s1) s

/-- A freshly constructed loader with configured capacity `n`
(`LazyAlgorithmLoader(max_cache_size=n)`). -/
def initLoader (n : Nat) : LazyAlgorithmLoader := { max_cache_size := n }

/-- Every cached id has a metadata record (holds in every reachable state:
caching goes through registration, which installs metadata, and metadata is
never deleted). -/
def CacheMeta (s : LazyAlgorithmLoader) : Prop :=
  ∀ k, dcontains k s.algorithm_cache = true → dcontains k s.algorithm_metadata = true

/-- Every registered id has a metadata record. -/
def RegMeta (s : LazyAlgorithmLoader) : Prop :=
  ∀ k, dcontains k s.algorithm_registry = true → dcontains k s.algorithm_metadata = true

/-- The loader's state invariant at configured capacity `n`. -/
def LoaderInv (n : Nat) (s : LazyAlgorithmLoader) : Prop :=
  s.max_cache_size = n ∧
  s.algorithm_cache.length ≤ n ∧
  CacheMeta s ∧ RegMeta s ∧
  (dkeys s.algorithm_metadata).Nodup

/-! ### Success and failure of cascade stages -/

/-- All listed stages load and execute successfully starting from the given
payload and loader state. -/
def stagesOk (t : Nat) : List String → Value → LazyAlgorithmLoader → Bool
  | [], _, _ => true
  | aid :: rest, v, s =>
    match runMember t aid v s with
    | (none, _) => false
    | (some v1, s1) => stagesOk t rest v1 s1

/-- The given stage fails from the given payload and loader state: either
its load returns `None` or its execution raises. -/
def stageFails (t : Nat) (aid : String) (v : Value) (s : LazyAlgorithmLoader) : Bool :=
  ((runMember t aid v s).1).isNone

/-! ### Concrete fixtures used by witnesses and counterexamples -/

/-- An algorithm instance that ignores its input and returns a fixed
numeric result. -/
def algConstNum (q : ℚ) : Algorithm := .plainCallable (fun _ => .ok (.num q))

/-- An algorithm instance that ignores its input and returns a fixed string
result. -/
def algConstStr (s : String) : Algorithm := .plainCallable (fun _ => .ok (.str s))

/-- An algorithm instance whose execution always raises. -/
def algFail : Algorithm := .plainCallable (fun _ => .error "boom")

/-- A factory that always succeeds, producing the given instance. -/
def constFactory (a : Algorithm) : Factory := fun _ => .ok a

/-- A factory that always raises. -/
def failFactory : Factory := fun _ => .error "factory down"

/-- A factory that raises on its first call (time 0) and succeeds later, for
the retry-after-`LoadFailure` claim. -/
def flakyFactory (a : Algorithm) : Factory :=
  fun t => if t = 0 then .error "cold start" else .ok a

/-- Minimal metadata record for a fixture algorithm created at time `t`. -/
def mkMeta (id : String) (t : Nat) : AlgorithmMetadata :=
  { algorithm_id := id, algorithm_type := .predictive, priority := .medium
    last_used := t }

/-- Loader for the cascade fixture: stage `A` succeeds, stage `B` loads but
raises during execution, stage `C` would succeed. -/
def c1Loader : LazyAlgorithmLoader :=
  applyOps
    [.reg "A" (constFactory (algConstStr "a")) (mkMeta "A" 0),
     .reg "B" (constFactory algFail) (mkMeta "B" 0),
     .reg "C" (constFactory (algConstStr "c")) (mkMeta "C" 0)]
    (initLoader 100)

/-- Engine for the cascade fixture: one chain `A, B, C`. -/
def c1Engine : CascadingAlgorithmEngine :=
  define_cascade_chain "chain" ["A", "B", "C"] {}

/-- Loader for the compound fixtures: member ids `compound_numerical` (the
reserved aggregate key), `X` (fails to load), `Y` and `Z` (numeric). -/
def c2Loader : LazyAlgorithmLoader :=
  applyOps
    [.reg "compound_numerical" (constFactory (algConstNum 1)) (mkMeta "compound_numerical" 0),
     .reg "X" failFactory (mkMeta "X" 0),
     .reg "Y" (constFactory (algConstNum 3)) (mkMeta "Y" 0),
     .reg "Z" (constFactory (algConstStr "z")) (mkMeta "Z" 0)]
    (initLoader 100)

/-- Engine for the compound fixtures: group `g` collides with the reserved
key; group `h` is an ordinary group with a failing member. -/
def c2Engine : CascadingAlgorithmEngine :=
  define_compound_group "h" ["X", "Y", "Z"]
    (define_compound_group "g" ["compound_numerical", "Y"] {})

/-- Result map of a graph execution, forgetting the loader state. -/
def resultMapOf (r : Except GraphError (List (String × Value) × LazyAlgorithmLoader)) :
    Option (List (String × Value)) :=
  match r with
  | .ok p => some p.1
  | .error _ => none

/-- Operation sequence whose replay exhibits the eviction tie-break: with
capacity 2, `A` and `B` are loaded with the same last-used timestamp but `A`
accumulates the higher use count. -/
def c9Ops : List LoaderOp :=
  [.reg "A" (constFactory (algConstStr "a")) (mkMeta "A" 0),
   .reg "B" (constFactory (algConstStr "b")) (mkMeta "B" 0),
   .reg "C" (constFactory (algConstStr "c")) (mkMeta "C" 0),
   .load 5 "A", .load 5 "A", .load 5 "A",
   .load 5 "B"]

/-- The state reached by `c9Ops` from a capacity-2 loader. -/
def c9State : LazyAlgorithmLoader := applyOps c9Ops (initLoader 2)

/-- Operation sequence for the capacity-zero counterexample. -/
def c3Ops : List LoaderOp :=
  [.reg "A" (constFactory (algConstStr "a")) (mkMeta "A" 0), .load 1 "A"]

/-- Orchestrator fixture with a single vertex `v` of capacity 10. -/
def c4State0 : VertexOrchestratorState := (create_vertex "v" 10 {}).2

/-- The queue state after submitting `t1` at LOW, `t2` at CRITICAL and `t3`
at MEDIUM priority, in that order, all to vertex `v`. -/
def c4Submitted : Except OrchestratorError VertexOrchestratorState :=
  (execute_task_enqueue "t1" "alg" (.num 1) .low (some "v") 10 c4State0).bind fun s1 =>
    (execute_task_enqueue "t2" "alg" (.num 2) .critical (some "v") 11 s1).bind fun s2 =>
      execute_task_enqueue "t3" "alg" (.num 3) .medium (some "v") 12 s2

/-- Task ids in worker pickup order, for an orchestrator state. -/
def pickupOrder (r : Except OrchestratorError VertexOrchestratorState) :
    Option (List String) :=
  match r with
  | .ok st => some ((drainQueue st.task_queue).map (fun e => e.task.task_id))
  | .error _ => none

/-- Loader fixture for the failure-taxonomy claim: `B` is registered with a
factory that raises at time 0 and succeeds at time 1; `N` is never
registered. -/
def c5Loader : LazyAlgorithmLoader :=
  applyOps
    [.reg "B" (flakyFactory (algConstStr "b")) (mkMeta "B" 0)]
    (initLoader 100)

/-- Orchestrator fixture after one monitor tick in the psutil-less fallback
mode (CPU 50%, memory 60%). -/
def c7After : VertexOrchestratorState :=
  monitor_tick none (create_vertex "v" 10 {}).2

/-- Orchestrator state after creating vertex `v` with capacity 5. -/
def c8Before : VertexOrchestratorState := (create_vertex "v" 5 {}).2

/-- Orchestrator state after creating vertex `v` again, now with
capacity 7, over `c8Before`. -/
def c8After : VertexOrchestratorState := (create_vertex "v" 7 c8Before).2

/-- Orchestrator state holding one healthy vertex and one capacity-zero
vertex. -/
def c10State : VertexOrchestratorState :=
  (create_vertex "z" 0 (create_vertex "v" 10 {}).2).2

/-- The vertex node of `c8Before` after a monitor tick sampling CPU 10% and
memory 20%. -/
def c7WitnessNode : VertexNode :=
  { vertex_id := "v", max_capacity := 5, load_factor := ((10 : ℚ) + 20) / 2 }

/-! ### Dictionary lemmas -/

theorem dlookup_dinsert_self {α : Type} (k : String) (v : α) (d : List (String × α)) :
    dlookup k (dinsert k v d) = some v := by
  induction d with
  | nil => simp [dinsert, dlookup]
  | cons p rest ih =>
    obtain ⟨k1, v1⟩ := p
    by_cases h : k1 = k
    · simp [dinsert, h, dlookup]
    · simp [dinsert, h, dlookup, ih]

theorem dlookup_dinsert_other {α : Type} {k j : String} (hkj : j ≠ k) (v : α)
    (d : List (String × α)) : dlookup k (dinsert j v d) = dlookup k d := by
  induction d with
  | nil => simp [dinsert, dlookup, hkj]
  | cons p rest ih =>
    obtain ⟨k1, v1⟩ := p
    by_cases h : k1 = j
    · subst h
      simp [dinsert, dlookup, hkj, Ne.symm hkj, ih]
    · by_cases h2 : k1 = k <;> simp [dinsert, dlookup, h, h2, Ne.symm hkj, ih]

theorem dlookup_dmodify_self {α : Type} (k : String) (f : α → α) (d : List (String × α)) :
    dlookup k (dmodify k f d) = (dlookup k d).map f := by
  induction d with
  | nil => simp [dmodify, dlookup]
  | cons p rest ih =>
    obtain ⟨k1, v1⟩ := p
    by_cases h : k1 = k
    · simp [dmodify, h, dlookup]
    · simp [dmodify, h, dlookup, ih]

theorem dkeys_dmodify {α : Type} (k : String) (f : α → α) (d : List (String × α)) :
    dkeys (dmodify k f d) = dkeys d := by
  induction d with
  | nil => simp [dmodify]
  | cons p rest ih =>
    obtain ⟨k1, v1⟩ := p
    by_cases h : k1 = k
    · simp [dmodify, h, dkeys] at ih ⊢
    · simp [dmodify, h, dkeys] at ih ⊢
      exact ih

theorem dlookup_eq_none_iff {α : Type} (k : String) (d : List (String × α)) :
    dlookup k d = none ↔ k ∉ dkeys d := by
  induction d with
  | nil => simp [dlookup, dkeys]
  | cons p rest ih =>
    obtain ⟨k1, v1⟩ := p
    by_cases h : k1 = k
    · simp [dlookup, dkeys, h]
    · simp [dlookup, dkeys, h, Ne.symm h, ih]

theorem dcontains_iff_mem {α : Type} (k : String) (d : List (String × α)) :
    dcontains k d = true ↔ k ∈ dkeys d := by
  rw [dcontains, Option.isSome_iff_ne_none]
  constructor
  · intro h
    by_contra hmem
    exact h ((dlookup_eq_none_iff k d).2 hmem)
  · intro h hnone
    exact ((dlookup_eq_none_iff k d).1 hnone) h

theorem dlookup_some_mem {α : Type} {k : String} {v : α} {d : List (String × α)}
    (h : dlookup k d = some v) : (k, v) ∈ d := by
  induction d with
  | nil => simp [dlookup] at h
  | cons p rest ih =>
    obtain ⟨k1, v1⟩ := p
    by_cases h1 : k1 = k
    · subst h1
      simp [dlookup] at h
      simp [h]
    · simp [dlookup, h1] at h
      exact List.mem_cons_of_mem _ (ih h)

theorem dlookup_of_mem_nodup {α : Type} {k : String} {v : α} {d : List (String × α)}
    (hnd : (dkeys d).Nodup) (h : (k, v) ∈ d) : dlookup k d = some v := by
  induction d with
  | nil => simp at h
  | cons p rest ih =>
    obtain ⟨k1, v1⟩ := p
    rw [dkeys, List.map_cons] at hnd
    have hhead := (List.nodup_cons.1 hnd).1
    have htail := (List.nodup_cons.1 hnd).2
    rcases List.mem_cons.1 h with h1 | h1
    · have hk := congrArg Prod.fst h1
      have hv := congrArg Prod.snd h1
      simp only at hk hv
      subst hk
      simp [dlookup, hv]
    · have hk1 : ¬ k1 = k := by
        intro he
        have hmem : k ∈ rest.map Prod.fst := List.mem_map_of_mem (f := Prod.fst) h1
        exact (he ▸ hhead) hmem
      simp [dlookup, hk1]
      exact ih htail h1

theorem derase_length {α : Type} {k : String} {d : List (String × α)}
    (h : dcontains k d = true) : (derase k d).length + 1 = d.length := by
  induction d with
  | nil => simp [dcontains, dlookup] at h
  | cons p rest ih =>
    obtain ⟨k1, v1⟩ := p
    by_cases h1 : k1 = k
    · simp [derase, h1]
    · simp [dcontains, dlookup, h1] at h
      simp [derase, h1, ih h]

theorem dlookup_derase_none {α : Type} {k : String} (j : String) {d : List (String × α)}
    (h : dlookup k d = none) : dlookup k (derase j d) = none := by
  induction d with
  | nil => simp [derase, dlookup]
  | cons p rest ih =>
    obtain ⟨k1, v1⟩ := p
    by_cases h1 : k1 = k
    · simp [dlookup, h1] at h
    · simp [dlookup, h1] at h
      by_cases h2 : k1 = j
      · simpa [derase, h2] using h
      · simp [derase, h2, dlookup, h1, ih h]

theorem length_dinsert {α : Type} (k : String) (v : α) (d : List (String × α)) :
    (dinsert k v d).length = if dcontains k d = true then d.length else d.length + 1 := by
  induction d with
  | nil => simp [dinsert, dcontains, dlookup]
  | cons p rest ih =>
    obtain ⟨k1, v1⟩ := p
    by_cases h1 : k1 = k
    · simp [dinsert, h1, dcontains, dlookup]
    · simp [dinsert, dcontains, dlookup, h1] at ih ⊢
      rw [ih]
      by_cases h2 : (dlookup k rest).isSome = true <;> simp [h2]

theorem dinsert_eq_append {α : Type} {k : String} (v : α) {d : List (String × α)}
    (h : dlookup k d = none) : dinsert k v d = d ++ [(k, v)] := by
  induction d with
  | nil => simp [dinsert]
  | cons p rest ih =>
    obtain ⟨k1, v1⟩ := p
    by_cases h1 : k1 = k
    · simp [dlookup, h1] at h
    · simp [dlookup, h1] at h
      simp [dinsert, h1, ih h]

theorem dlookup_append_of_none {α : Type} {k : String} {d1 : List (String × α)}
    (d2 : List (String × α)) (h : dlookup k d1 = none) :
    dlookup k (d1 ++ d2) = dlookup k d2 := by
  induction d1 with
  | nil => simp
  | cons p rest ih =>
    obtain ⟨k1, v1⟩ := p
    by_cases h1 : k1 = k
    · simp [dlookup, h1] at h
    · simp [dlookup, h1] at h ⊢
      exact ih h

theorem dlookup_append_of_some {α : Type} {k : String} {v : α} {d1 : List (String × α)}
    (d2 : List (String × α)) (h : dlookup k d1 = some v) :
    dlookup k (d1 ++ d2) = some v := by
  induction d1 with
  | nil => simp [dlookup] at h
  | cons p rest ih =>
    obtain ⟨k1, v1⟩ := p
    by_cases h1 : k1 = k
    · simp [dlookup, h1] at h ⊢
      exact h
    · simp [dlookup, h1] at h ⊢
      exact ih h

theorem foldl_dinsert_append {α β : Type} (g : String × β → α) :
    ∀ (pairs : List (String × β)) (acc : List (String × α)),
      (pairs.map Prod.fst).Nodup →
      (∀ p ∈ pairs, dlookup p.1 acc = none) →
      pairs.foldl (fun a p => dinsert p.1 (g p) a) acc
        = acc ++ pairs.map (fun p => (p.1, g p))
  | [], acc, _, _ => by simp
  | p :: rest, acc, hnd, hdisj => by
    obtain ⟨k, b⟩ := p
    simp only [List.foldl_cons]
    have hk : dlookup k acc = none := hdisj (k, b) (List.mem_cons_self _ _)
    rw [dinsert_eq_append (g (k, b)) hk]
    rw [List.map_cons] at hnd
    have hk_not : k ∉ rest.map Prod.fst := (List.nodup_cons.1 hnd).1
    have hnd1 : (rest.map Prod.fst).Nodup := (List.nodup_cons.1 hnd).2
    have hdisj1 : ∀ q ∈ rest, dlookup q.1 (acc ++ [(k, g (k, b))]) = none := by
      intro q hq
      have hq1 : dlookup q.1 acc = none := hdisj q (List.mem_cons_of_mem _ hq)
      rw [dlookup_append_of_none _ hq1]
      have hqk : ¬ k = q.1 := by
        intro he
        exact hk_not (by rw [he]; exact List.mem_map_of_mem Prod.fst hq)
      simp [dlookup, hqk]
    rw [foldl_dinsert_append g rest (acc ++ [(k, g (k, b))]) hnd1 hdisj1]
    simp

/-! ### Minimum-selection lemmas -/

theorem minByFirst_eq_none_iff {α κ : Type} (le : κ → κ → Bool) (key : α → κ)
    (l : List α) : minByFirst le key l = none ↔ l = [] := by
  cases l with
  | nil => simp [minByFirst]
  | cons a rest =>
    simp only [minByFirst]
    cases minByFirst le key rest with
    | none => simp
    | some b =>
      by_cases h : le (key a) (key b) = true <;> simp [h]

theorem minByFirst_mem {α κ : Type} {le : κ → κ → Bool} {key : α → κ}
    {l : List α} {a : α} (h : minByFirst le key l = some a) : a ∈ l := by
  induction l generalizing a with
  | nil => simp [minByFirst] at h
  | cons x rest ih =>
    simp only [minByFirst] at h
    cases hm : minByFirst le key rest with
    | none =>
      rw [hm] at h
      simp at h
      simp [h]
    | some b =>
      rw [hm] at h
      by_cases hle : le (key x) (key b) = true
      · simp [hle] at h
        simp [h]
      · simp [hle] at h
        exact List.mem_cons_of_mem _ (ih (by rw [hm, h]))

theorem minByFirst_le {α κ : Type} {le : κ → κ → Bool} {key : α → κ}
    (htot : ∀ x y, le x y = false → le y x = true)
    (htrans : ∀ x y z, le x y = true → le y z = true → le x z = true)
    {l : List α} {a : α} (h : minByFirst le key l = some a) :
    ∀ b ∈ l, le (key a) (key b) = true := by
  have hrefl : ∀ x, le x x = true := by
    intro x
    by_cases hx : le x x = true
    · exact hx
    · simp at hx
      exact htot x x hx
  induction l generalizing a with
  | nil => simp [minByFirst] at h
  | cons x rest ih =>
    simp only [minByFirst] at h
    cases hm : minByFirst le key rest with
    | none =>
      rw [hm] at h
      simp at h
      have : rest = [] := (minByFirst_eq_none_iff le key rest).1 hm
      subst this
      intro b hb
      simp at hb
      subst hb
      rw [← h]
      exact hrefl _
    | some m =>
      rw [hm] at h
      by_cases hle : le (key x) (key m) = true
      · simp [hle] at h
        subst h
        intro b hb
        rcases List.mem_cons.1 hb with hb | hb
        · subst hb
          exact hrefl _
        · exact htrans _ _ _ hle (ih hm b hb)
      · simp [hle] at h
        subst h
        intro b hb
        rcases List.mem_cons.1 hb with hb | hb
        · subst hb
          simp at hle
          exact htot _ _ hle
        · exact ih hm b hb

theorem minByFirst_split {α κ : Type} {le : κ → κ → Bool} {key : α → κ}
    {l : List α} {a : α} (h : minByFirst le key l = some a) :
    ∃ pre suf, l = pre ++ a :: suf ∧ ∀ b ∈ pre, le (key b) (key a) = false := by
  induction l generalizing a with
  | nil => simp [minByFirst] at h
  | cons x rest ih =>
    simp only [minByFirst] at h
    cases hm : minByFirst le key rest with
    | none =>
      rw [hm] at h
      simp at h
      exact ⟨[], rest, by simp [h], by simp⟩
    | some m =>
      rw [hm] at h
      by_cases hle : le (key x) (key m) = true
      · simp [hle] at h
        exact ⟨[], rest, by simp [h], by simp⟩
      · simp [hle] at h
        subst h
        obtain ⟨pre, suf, heq, hpre⟩ := ih hm
        refine ⟨x :: pre, suf, by simp [heq], ?_⟩
        intro b hb
        rcases List.mem_cons.1 hb with hb | hb
        · subst hb
          simpa using hle
        · exact hpre b hb

theorem pairLE_total (x y : Nat × Nat) : pairLE x y = false → pairLE y x = true := by
  simp [pairLE]
  omega

theorem pairLE_trans (x y z : Nat × Nat) :
    pairLE x y = true → pairLE y z = true → pairLE x z = true := by
  simp [pairLE]
  omega

theorem entryLE_total (x y : QEntry) : entryLE x y = false → entryLE y x = true := by
  simp [entryLE]
  omega

theorem entryLE_trans (x y z : QEntry) :
    entryLE x y = true → entryLE y z = true → entryLE x z = true := by
  simp [entryLE]
  omega

theorem ratLE_total (x y : ℚ) : ratLE x y = false → ratLE y x = true := by
  simp [ratLE]
  intro h
  exact le_of_lt h

/-! ### Priority-queue lemmas -/

theorem popMin_eq_none_iff (q : List QEntry) : popMin q = none ↔ q = [] := by
  cases q with
  | nil => simp [popMin]
  | cons e es =>
    simp only [popMin]
    cases popMin es with
    | none => simp
    | some mr =>
      by_cases h : entryLE e mr.1 = true <;> simp [h]

theorem popMin_perm {q : List QEntry} {e : QEntry} {r : List QEntry}
    (h : popMin q = some (e, r)) : q.Perm (e :: r) := by
  induction q generalizing e r with
  | nil => simp [popMin] at h
  | cons x es ih =>
    simp only [popMin] at h
    cases hm : popMin es with
    | none =>
      rw [hm] at h
      have : es = [] := (popMin_eq_none_iff es).1 hm
      subst this
      simp at h
      simp [h.1, h.2]
    | some mr =>
      obtain ⟨m, r2⟩ := mr
      rw [hm] at h
      by_cases hle : entryLE x m = true
      · simp [hle] at h
        obtain ⟨he, hr⟩ := h
        subst he
        subst hr
        exact List.Perm.refl _
      · simp [hle] at h
        obtain ⟨he, hr⟩ := h
        subst he
        subst hr
        have hp : es.Perm (m :: r2) := ih hm
        exact (hp.cons x).trans (List.Perm.swap m x r2)

theorem popMin_le {q : List QEntry} {e : QEntry} {r : List QEntry}
    (h : popMin q = some (e, r)) : ∀ b ∈ r, entryLE e b = true := by
  induction q generalizing e r with
  | nil => simp [popMin] at h
  | cons x es ih =>
    simp only [popMin] at h
    cases hm : popMin es with
    | none =>
      rw [hm] at h
      have : es = [] := (popMin_eq_none_iff es).1 hm
      subst this
      simp at h
      obtain ⟨he, hr⟩ := h
      subst hr
      simp
    | some mr =>
      obtain ⟨m, r2⟩ := mr
      rw [hm] at h
      by_cases hle : entryLE x m = true
      · simp [hle] at h
        obtain ⟨he, hr⟩ := h
        subst he
        subst hr
        intro b hb
        have hperm := popMin_perm hm
        rcases List.mem_cons.1 (hperm.mem_iff.1 hb) with hb1 | hb1
        · subst hb1
          exact hle
        · exact entryLE_trans _ _ _ hle (ih hm b hb1)
      · simp [hle] at h
        obtain ⟨he, hr⟩ := h
        subst he
        subst hr
        intro b hb
        rcases List.mem_cons.1 hb with hb1 | hb1
        · subst hb1
          simp at hle
          exact entryLE_total _ _ hle
        · exact ih hm b hb1

theorem drainFuel_perm : ∀ (n : Nat) (q : List QEntry), q.length ≤ n →
    (drainFuel n q).Perm q
  | 0, q, h => by
    have : q = [] := List.eq_nil_of_length_eq_zero (Nat.le_zero.1 h)
    subst this
    simp [drainFuel]
  | n + 1, q, h => by
    simp only [drainFuel]
    cases hp : popMin q with
    | none =>
      have : q = [] := (popMin_eq_none_iff q).1 hp
      subst this
      simp
    | some er =>
      obtain ⟨e, r⟩ := er
      have hperm := popMin_perm hp
      have hlen : r.length + 1 = q.length := by
        have := hperm.length_eq
        simpa using this.symm
      have hr : r.length ≤ n := by omega
      exact ((drainFuel_perm n r hr).cons e).trans hperm.symm

theorem drainFuel_sorted : ∀ (n : Nat) (q : List QEntry),  q.length ≤ n →
    (drainFuel n q).Pairwise (fun a b => entryLE a b = true)
  | 0, q, _ => by simp [drainFuel]
  | n + 1, q, h => by
    simp only [drainFuel]
    cases hp : popMin q with
    | none => simp
    | some er =>
      obtain ⟨e, r⟩ := er
      have hperm := popMin_perm hp
      have hlen : r.length + 1 = q.length := by
        have := hperm.length_eq
        simpa using this.symm
      have hr : r.length ≤ n := by omega
      refine List.Pairwise.cons ?_ (drainFuel_sorted n r hr)
      intro b hb
      exact popMin_le hp b ((drainFuel_perm n r hr).mem_iff.1 hb)

/-! ### Claim C4 -/

/-- C4: tasks pending in the queue are dequeued ordered first by ascending
numeric priority value and, within equal priority, in first-in-first-out
submission order determined by the monotonic sequence number: the drain
order of any queue is a permutation of it sorted under the lexicographic
`(priority, counter)` order, each submission is stamped with the current
counter which is then incremented, and the concrete single-worker scenario
submitting priorities LOW, CRITICAL, MEDIUM yields pickup order CRITICAL,
MEDIUM, LOW. -/
theorem task_queue_priority_fifo :
    (∀ q : List QEntry, (drainQueue q).Perm q ∧
      (drainQueue q).Pairwise (fun a b => entryLE a b = true)) ∧
    (∀ (st : VertexOrchestratorState) (tid aid : String) (d : Value)
      (p : AlgorithmPriority) (vid : String) (t : Nat), ∃ td : TaskData,
      execute_task_enqueue tid aid d p (some vid) t st
        = .ok { st with
            task_counter := st.task_counter + 1
            task_queue := st.task_queue
              ++ [{ priority := p.pvalue, counter := st.task_counter, task := td }] }) ∧
    pickupOrder c4Submitted = some ["t2", "t3", "t1"] := by
  refine ⟨?_, ?_, ?_⟩
  · intro q
    exact ⟨drainFuel_perm q.length q (Nat.le_refl _),
      drainFuel_sorted q.length q (Nat.le_refl _)⟩
  · intro st tid aid d p vid t
    exact ⟨_, rfl⟩
  · rfl

/-! ### Cascade lemmas and claim C1 -/

theorem runStages_append_ok (t : Nat) :
    ∀ (pre suf : List String) (v : Value) (s : LazyAlgorithmLoader),
      stagesOk t pre v s = true →
      runStages t (pre ++ suf) v s
        = runStages t suf (runStages t pre v s).1 (runStages t pre v s).2
  | [], suf, v, s, _ => by simp [runStages]
  | aid :: rest, suf, v, s, h => by
    simp only [stagesOk] at h
    simp only [List.cons_append, runStages]
    cases hm : runMember t aid v s with
    | mk res s1 =>
      rw [hm] at h
      cases res with
      | none => exact Bool.noConfusion (show false = true from h)
      | some v1 => exact runStages_append_ok t rest suf v1 s1 h

theorem runStages_fail (t : Nat) (aid : String) (rest : List String) (v : Value)
    (s : LazyAlgorithmLoader) (h : stageFails t aid v s = true) :
    runStages t (aid :: rest) v s = (v, (runMember t aid v s).2) := by
  simp only [stageFails, Option.isNone_iff_eq_none] at h
  simp only [runStages]
  cases hm : runMember t aid v s with
  | mk res s1 =>
    rw [hm] at h
    cases res with
    | none => rfl
    | some v1 => simp at h

/-- C1: a cascade run raises an error exactly when the chain id is
undefined (and then it is the undefined-chain error); for a defined chain it
always returns a payload; and whenever the stages split as `pre ++ bad ::
rest` with every stage of `pre` succeeding and `bad` failing (to load or
during execution), the returned payload is exactly the one produced by
running `pre` — independent of `rest` — which for `pre = []` is the
original input unchanged. -/
theorem execute_cascade_best_effort (t : Nat) (eng : CascadingAlgorithmEngine)
    (chain_id : String) (v0 : Value) (s0 : LazyAlgorithmLoader) :
    (dlookup chain_id eng.cascade_chains = none ↔
      execute_cascade t eng chain_id v0 s0 = .error (.undefinedChain chain_id)) ∧
    (∀ seq, dlookup chain_id eng.cascade_chains = some seq →
      ∃ r, execute_cascade t eng chain_id v0 s0 = .ok r) ∧
    (∀ pre bad rest,
      dlookup chain_id eng.cascade_chains = some (pre ++ bad :: rest) →
      stagesOk t pre v0 s0 = true →
      stageFails t bad (runStages t pre v0 s0).1 (runStages t pre v0 s0).2 = true →
      ∃ s1, execute_cascade t eng chain_id v0 s0
        = .ok ((runStages t pre v0 s0).1, s1)) := by
  refine ⟨⟨?_, ?_⟩, ?_, ?_⟩
  · intro h
    simp [execute_cascade, h]
  · intro h
    cases hl : dlookup chain_id eng.cascade_chains with
    | none => rfl
    | some seq => simp [execute_cascade, hl] at h
  · intro seq hl
    exact ⟨runStages t seq v0 s0, by simp [execute_cascade, hl]⟩
  · intro pre bad rest hl hok hfail
    simp only [execute_cascade, hl]
    rw [runStages_append_ok t pre (bad :: rest) v0 s0 hok]
    rw [runStages_fail t bad rest _ _ hfail]
    exact ⟨_, rfl⟩

/-- Witness for C1: in the concrete fixture chain `A, B, C` where `B`
raises during execution, the cascade returns stage `A`'s output (the string
"a"), not `C`'s and not the original input. -/
theorem execute_cascade_best_effort_witness :
    (∃ s1, execute_cascade 0 c1Engine "chain" (.str "s") c1Loader
      = .ok ((runStages 0 ["A"] (.str "s") c1Loader).1, s1)) ∧
    (runStages 0 ["A"] (.str "s") c1Loader).1 = .str "a" :=
  ⟨(execute_cascade_best_effort 0 c1Engine "chain" (.str "s") c1Loader).2.2
    ["A"] "B" ["C"] rfl rfl rfl, rfl⟩

/-! ### Compound lemmas and claim C2 -/

theorem runMembers_keys (t : Nat) :
    ∀ (members : List String) (v : Value) (s : LazyAlgorithmLoader),
      ((runMembers t members v s).1).map Prod.fst = members
  | [], _, _ => rfl
  | aid :: rest, v, s => by
    simp only [runMembers]
    simp [runMembers_keys t rest v]

theorem compoundResultMap_eq {pairs : List (String × Option Value)}
    (hnd : (pairs.map Prod.fst).Nodup) :
    compoundResultMap pairs = pairs.map (fun p => (p.1, sentinel p.2)) := by
  have h := foldl_dinsert_append (fun p => sentinel p.2) pairs [] hnd
    (by intro p _; rfl)
  simpa [compoundResultMap] using h

theorem numericalResults_map_sentinel (pairs : List (String × Option Value)) :
    numericalResults (pairs.map (fun p => (p.1, sentinel p.2)))
      = pairs.filterMap (fun p =>
          match p.2 with
          | some (Value.num q) => some (p.1, q)
          | _ => none) := by
  rw [numericalResults, List.filterMap_map]
  congr 1
  funext p
  obtain ⟨k, ov⟩ := p
  cases ov with
  | none => rfl
  | some v => cases v <;> rfl

theorem numericalResults_snd (pairs : List (String × Option Value)) :
    (numericalResults (pairs.map (fun p => (p.1, sentinel p.2)))).map Prod.snd
      = pairs.filterMap numericOutcome := by
  rw [numericalResults_map_sentinel, List.map_filterMap]
  congr 1
  funext p
  obtain ⟨k, ov⟩ := p
  cases ov with
  | none => rfl
  | some v => cases v <;> rfl

theorem apply_compounding_spec (results : List (String × Value))
    (hnd : (results.map Prod.fst).Nodup)
    (hcn : "compound_numerical" ∉ results.map Prod.fst) :
    (∀ p ∈ results, dlookup p.1 (apply_compounding_enhancement results) = some p.2) ∧
    (numericalResults results ≠ [] →
      dlookup "compound_numerical" (apply_compounding_enhancement results)
        = some (.num (((numericalResults results).map Prod.snd).sum
            / ((numericalResults results).length : ℚ)))) ∧
    (numericalResults results = [] →
      dlookup "compound_numerical" (apply_compounding_enhancement results) = none) := by
  have heta : results.map (fun p => (p.1, p.2)) = results := by
    simp
  have hmem_ne : ∀ p ∈ results, p.1 ≠ "compound_numerical" := by
    intro p hp he
    exact hcn (he ▸ List.mem_map_of_mem Prod.fst hp)
  by_cases hnr : numericalResults results = []
  · have hacc : apply_compounding_enhancement results
        = results.foldl (fun acc p => dinsert p.1 p.2 acc) [] := by
      simp [apply_compounding_enhancement, hnr]
    have hfold := foldl_dinsert_append (fun p : String × Value => p.2) results [] hnd
      (by intro p _; rfl)
    rw [hacc, hfold, List.nil_append, heta]
    refine ⟨?_, ?_, ?_⟩
    · intro p hp
      have : (p.1, p.2) ∈ results := by simpa using hp
      exact dlookup_of_mem_nodup hnd this
    · intro h
      exact absurd hnr h
    · intro _
      exact (dlookup_eq_none_iff _ _).2 hcn
  · have hpos : (0 : ℚ) < ((numericalResults results).length : ℚ) := by
      have : 0 < (numericalResults results).length :=
        List.length_pos.2 hnr
      exact_mod_cast this
    have hacc : apply_compounding_enhancement results
        = results.foldl (fun acc p => dinsert p.1 p.2 acc)
            [("compound_numerical",
              Value.num (((numericalResults results).map Prod.snd).sum
                / ((numericalResults results).length : ℚ)))] := by
      simp [apply_compounding_enhancement, hnr, List.isEmpty_iff, hpos]
    have hfold := foldl_dinsert_append (fun p : String × Value => p.2) results
      [("compound_numerical",
        Value.num (((numericalResults results).map Prod.snd).sum
          / ((numericalResults results).length : ℚ)))] hnd
      (by
        intro p hp
        simp [dlookup, (hmem_ne p hp).symm])
    rw [hacc, hfold, heta]
    refine ⟨?_, ?_, ?_⟩
    · intro p hp
      have hne : dlookup p.1
          [("compound_numerical",
            Value.num (((numericalResults results).map Prod.snd).sum
              / ((numericalResults results).length : ℚ)))] = none := by
        simp [dlookup, (hmem_ne p hp).symm]
      rw [dlookup_append_of_none _ hne]
      have : (p.1, p.2) ∈ results := by simpa using hp
      exact dlookup_of_mem_nodup hnd this
    · intro _
      exact dlookup_append_of_some _ (by simp [dlookup])
    · intro h
      exact absurd h hnr

/-- C2 counterexample: the aggregate key is not protected from member ids —
running group `g`, whose first member is itself named `compound_numerical`
and returns 1 while member `Y` returns 3, produces a map whose
`compound_numerical` entry is the member's own value 1, not the
equal-weighted mean (1+3)/2 of the numeric member results; so on this input
the claim as stated fails. -/
theorem execute_compound_reserved_key_clash :
    resultMapOf (execute_compound 0 c2Engine "g" Value.null c2Loader)
      = some [("compound_numerical", Value.num 1), ("Y", Value.num 3)] ∧
    Value.num 1 ≠ Value.num ((1 + 3) / 2 : ℚ) := by
  constructor
  · rfl
  · simp only [ne_eq, Value.num.injEq]
    norm_num

/-- C2 (amended): a compound run raises exactly when the group id is
undefined; for a defined group whose member ids are distinct (the design
document treats a group as a set) and do not include the reserved aggregate
key `compound_numerical`, the returned map sends every failed member to the
null sentinel and every successful member to its result, and the reserved
key to the equal-weighted arithmetic mean of exactly the numeric member
results when at least one is numeric (it is absent otherwise). When a
member id equals the reserved key, the member's own entry overwrites the
aggregate (see the counterexample). -/
theorem execute_compound_best_effort (t : Nat) (eng : CascadingAlgorithmEngine)
    (gid : String) (data : Value) (s0 : LazyAlgorithmLoader) :
    (dlookup gid eng.compound_groups = none ↔
      execute_compound t eng gid data s0 = .error (.undefinedGroup gid)) ∧
    (∀ members, dlookup gid eng.compound_groups = some members →
      members.Nodup → "compound_numerical" ∉ members →
      ∃ fm s1, execute_compound t eng gid data s0 = .ok (fm, s1) ∧
        (∀ p ∈ (runMembers t members data s0).1,
          dlookup p.1 fm = some (sentinel p.2)) ∧
        (((runMembers t members data s0).1.filterMap numericOutcome ≠ [] →
          dlookup "compound_numerical" fm
            = some (.num
                (((runMembers t members data s0).1.filterMap numericOutcome).sum
                  / (((runMembers t members data s0).1.filterMap numericOutcome).length : ℚ)))) ∧
         ((runMembers t members data s0).1.filterMap numericOutcome = [] →
          dlookup "compound_numerical" fm = none))) := by
  constructor
  · constructor
    · intro h
      simp [execute_compound, h]
    · intro h
      cases hl : dlookup gid eng.compound_groups with
      | none => rfl
      | some g => simp [execute_compound, hl] at h
  · intro members hl hnd hcn
    have hkeys : ((runMembers t members data s0).1).map Prod.fst = members :=
      runMembers_keys t members data s0
    have hnd1 : (((runMembers t members data s0).1).map Prod.fst).Nodup := by
      rw [hkeys]; exact hnd
    have hcrm := compoundResultMap_eq hnd1
    have hkeys2 : ((((runMembers t members data s0).1).map
        (fun p => (p.1, sentinel p.2))).map Prod.fst) = members := by
      rw [List.map_map]
      have : (Prod.fst ∘ fun p : String × Option Value => (p.1, sentinel p.2))
          = Prod.fst := by
        funext p; rfl
      rw [this, hkeys]
    have hspec := apply_compounding_spec
      (((runMembers t members data s0).1).map (fun p => (p.1, sentinel p.2)))
      (by rw [hkeys2]; exact hnd) (by rw [hkeys2]; exact hcn)
    refine ⟨apply_compounding_enhancement
        (compoundResultMap (runMembers t members data s0).1),
      (runMembers t members data s0).2, by simp [execute_compound, hl], ?_, ?_, ?_⟩
    · intro p hp
      rw [hcrm]
      exact hspec.1 (p.1, sentinel p.2) (List.mem_map_of_mem _ hp)
    · intro hne
      rw [hcrm]
      have hsnd := numericalResults_snd (runMembers t members data s0).1
      have hnr_ne : numericalResults (((runMembers t members data s0).1).map
          (fun p => (p.1, sentinel p.2))) ≠ [] := by
        intro h0
        rw [h0] at hsnd
        exact hne (by simpa using hsnd.symm)
      have hlen : ((numericalResults (((runMembers t members data s0).1).map
          (fun p => (p.1, sentinel p.2)))).length : ℚ)
          = (((runMembers t members data s0).1.filterMap numericOutcome).length : ℚ) := by
        rw [← hsnd, List.length_map]
      rw [hspec.2.1 hnr_ne, hsnd, hlen]
    · intro hz
      rw [hcrm]
      have hsnd := numericalResults_snd (runMembers t members data s0).1
      have hnr_z : numericalResults (((runMembers t members data s0).1).map
          (fun p => (p.1, sentinel p.2))) = [] := by
        have : (numericalResults (((runMembers t members data s0).1).map
            (fun p => (p.1, sentinel p.2)))).map Prod.snd = [] := by
          rw [hsnd, hz]
        exact List.map_eq_nil_iff.1 this
      exact hspec.2.2 hnr_z

/-- Witness for C2 (amended): running the ordinary group `h`, where member
`X` fails to load, `Y` returns the number 3 and `Z` returns a string, the
claim instance yields a map with `X` mapped to null, `Y` and `Z` to their
results, and the aggregate key present (the numeric outcomes are nonempty:
exactly `Y`'s 3). -/
theorem execute_compound_best_effort_witness :
    ∃ fm s1, execute_compound 0 c2Engine "h" Value.null c2Loader = .ok (fm, s1) ∧
      (∀ p ∈ (runMembers 0 ["X", "Y", "Z"] Value.null c2Loader).1,
        dlookup p.1 fm = some (sentinel p.2)) ∧
      (((runMembers 0 ["X", "Y", "Z"] Value.null c2Loader).1.filterMap numericOutcome ≠ [] →
        dlookup "compound_numerical" fm
          = some (.num
              (((runMembers 0 ["X", "Y", "Z"] Value.null c2Loader).1.filterMap numericOutcome).sum
                / (((runMembers 0 ["X", "Y", "Z"] Value.null c2Loader).1.filterMap numericOutcome).length : ℚ)))) ∧
       ((runMembers 0 ["X", "Y", "Z"] Value.null c2Loader).1.filterMap numericOutcome = [] →
        dlookup "compound_numerical" fm = none)) :=
  (execute_compound_best_effort 0 c2Engine "h" Value.null c2Loader).2
    ["X", "Y", "Z"] rfl (by decide) (by decide)

/-! ### Further dictionary lemmas for the loader invariant -/

theorem dcontains_dinsert_iff {α : Type} (k j : String) (v : α) (d : List (String × α)) :
    dcontains k (dinsert j v d) = true ↔ k = j ∨ dcontains k d = true := by
  by_cases h : j = k
  · subst h
    simp [dcontains, dlookup_dinsert_self]
  · rw [dcontains, dlookup_dinsert_other h]
    constructor
    · intro h1
      exact Or.inr h1
    · intro h1
      rcases h1 with h1 | h1
      · exact absurd h1.symm h
      · exact h1

theorem nodup_dkeys_dinsert {α : Type} (j : String) (v : α) {d : List (String × α)}
    (h : (dkeys d).Nodup) : (dkeys (dinsert j v d)).Nodup := by
  by_cases hc : dcontains j d = true
  · have : dkeys (dinsert j v d) = dkeys d := by
      induction d with
      | nil => simp [dcontains, dlookup] at hc
      | cons p rest ih =>
        obtain ⟨k1, v1⟩ := p
        by_cases h1 : k1 = j
        · simp [dinsert, h1, dkeys]
        · simp [dcontains, dlookup, h1] at hc
          simp [dinsert, h1, dkeys] at h ⊢
          exact ih h.2 hc
    rw [this]
    exact h
  · have hno : j ∉ dkeys d := by
      intro hmem
      exact hc ((dcontains_iff_mem j d).2 hmem)
    have : dkeys (dinsert j v d) = dkeys d ++ [j] := by
      have hnone : dlookup j d = none := (dlookup_eq_none_iff j d).2 hno
      rw [dinsert_eq_append v hnone]
      simp [dkeys]
    rw [this]
    simp [List.nodup_append, h, hno]

theorem derase_length_le {α : Type} (k : String) (d : List (String × α)) :
    (derase k d).length ≤ d.length := by
  induction d with
  | nil => simp [derase]
  | cons p rest ih =>
    obtain ⟨k1, v1⟩ := p
    by_cases h : k1 = k
    · simp [derase, h]
    · simp [derase, h]
      omega

theorem dcontains_derase {α : Type} {k : String} (j : String) {d : List (String × α)}
    (h : dcontains k (derase j d) = true) : dcontains k d = true := by
  by_cases hc : dcontains k d = true
  · exact hc
  · have : dlookup k d = none := by
      rw [dcontains] at hc
      cases hl : dlookup k d with
      | none => rfl
      | some v => rw [hl] at hc; simp at hc
    rw [dcontains, dlookup_derase_none j this] at h
    simp at h

theorem dcontains_dmodify {α : Type} (k j : String) (f : α → α) (d : List (String × α)) :
    dcontains k (dmodify j f d) = dcontains k d := by
  have h1 := dkeys_dmodify j f d
  by_cases h : dcontains k d = true
  · have := (dcontains_iff_mem k d).1 h
    rw [h, (dcontains_iff_mem k (dmodify j f d)).2 (h1 ▸ this)]
  · simp at h
    rw [h]
    by_cases h2 : dcontains k (dmodify j f d) = true
    · exact absurd ((dcontains_iff_mem k d).2 (h1 ▸ (dcontains_iff_mem _ _).1 h2))
        (by simp [h])
    · simp at h2
      exact h2

/-! ### Unfolding equations for `load_algorithm` -/

theorem load_algorithm_cache_hit {t : Nat} {id : String} {s : LazyAlgorithmLoader}
    {alg : Algorithm} (h : dlookup id s.algorithm_cache = some alg) :
    load_algorithm t id s
      = { result := some alg, state := update_access_stats t id s, log := [] } := by
  simp only [load_algorithm, h]

theorem load_algorithm_not_registered {t : Nat} {id : String} {s : LazyAlgorithmLoader}
    (h1 : dlookup id s.algorithm_cache = none)
    (h2 : dlookup id s.algorithm_registry = none) :
    load_algorithm t id s
      = { result := none, state := s, log := [LogEvent.notRegistered id] } := by
  simp only [load_algorithm, h1, h2]

theorem load_algorithm_factory_error {t : Nat} {id : String} {s : LazyAlgorithmLoader}
    {f : Factory} {e : String}
    (h1 : dlookup id s.algorithm_cache = none)
    (h2 : dlookup id s.algorithm_registry = some f)
    (hf : f t = .error e) :
    load_algorithm t id s
      = { result := none
          state := (if s.max_cache_size ≤ s.algorithm_cache.length
            then evict_least_used s else (s, [])).1
          log := (if s.max_cache_size ≤ s.algorithm_cache.length
            then evict_least_used s else (s, [])).2 ++ [LogEvent.loadFailure id e] } := by
  simp only [load_algorithm, h1, h2, hf]

theorem load_algorithm_factory_ok {t : Nat} {id : String} {s : LazyAlgorithmLoader}
    {f : Factory} {alg : Algorithm}
    (h1 : dlookup id s.algorithm_cache = none)
    (h2 : dlookup id s.algorithm_registry = some f)
    (hf : f t = .ok alg) :
    load_algorithm t id s
      = { result := some alg
          state := update_access_stats t id
            { (if s.max_cache_size ≤ s.algorithm_cache.length
                then evict_least_used s else (s, [])).1 with
              algorithm_cache := dinsert id alg
                (if s.max_cache_size ≤ s.algorithm_cache.length
                  then evict_least_used s else (s, [])).1.algorithm_cache }
          log := (if s.max_cache_size ≤ s.algorithm_cache.length
            then evict_least_used s else (s, [])).2 ++ [LogEvent.loaded id] } := by
  simp only [load_algorithm, h1, h2, hf]

/-! ### Eviction characterisation -/

theorem evict_spec (s : LazyAlgorithmLoader) (hcm : CacheMeta s)
    (hnd : (dkeys s.algorithm_metadata).Nodup)
    (hne : s.algorithm_cache ≠ []) :
    ∃ eid me,
      evict_least_used s
        = ({ s with algorithm_cache := derase eid s.algorithm_cache },
           [LogEvent.evicted eid]) ∧
      dcontains eid s.algorithm_cache = true ∧
      dlookup eid s.algorithm_metadata = some me ∧
      (∀ k mk, dcontains k s.algorithm_cache = true →
        dlookup k s.algorithm_metadata = some mk → me.last_used ≤ mk.last_used) ∧
      (∃ pre suf, s.algorithm_metadata = pre ++ (eid, me) :: suf ∧
        ∀ q ∈ pre, dcontains q.1 s.algorithm_cache = true →
          me.last_used < q.2.last_used) := by
  obtain ⟨⟨ck, cv⟩, crest, hcc⟩ : ∃ c crest, s.algorithm_cache = c :: crest := by
    cases hc : s.algorithm_cache with
    | nil => exact absurd hc hne
    | cons c crest => exact ⟨c, crest, rfl⟩
  have hck : dcontains ck s.algorithm_cache = true := by
    rw [hcc]
    simp [dcontains, dlookup]
  have hmc_contains : dcontains ck s.algorithm_metadata = true := hcm ck hck
  obtain ⟨mc, hmc⟩ : ∃ mc, dlookup ck s.algorithm_metadata = some mc := by
    rw [dcontains] at hmc_contains
    cases hl : dlookup ck s.algorithm_metadata with
    | none => rw [hl] at hmc_contains; simp at hmc_contains
    | some mc => exact ⟨mc, rfl⟩
  have hmem_mc : (ck, mc) ∈ s.algorithm_metadata := dlookup_some_mem hmc
  have hmeta_ne : s.algorithm_metadata ≠ [] := by
    intro h0
    rw [h0] at hmem_mc
    simp at hmem_mc
  obtain ⟨⟨eid, me⟩, hmin⟩ : ∃ p, minByFirst pairLE (evictKey s.algorithm_cache)
      s.algorithm_metadata = some p := by
    cases hm : minByFirst pairLE (evictKey s.algorithm_cache) s.algorithm_metadata with
    | none => exact absurd ((minByFirst_eq_none_iff _ _ _).1 hm) hmeta_ne
    | some p => exact ⟨p, rfl⟩
  have hle_all := minByFirst_le pairLE_total pairLE_trans hmin
  have hkey_le := hle_all (ck, mc) hmem_mc
  have heid_cached : dcontains eid s.algorithm_cache = true := by
    by_cases h : dcontains eid s.algorithm_cache = true
    · exact h
    · simp at h
      rw [evictKey, evictKey] at hkey_le
      simp only [h, hck] at hkey_le
      simp [pairLE] at hkey_le
  have hme : dlookup eid s.algorithm_metadata = some me :=
    dlookup_of_mem_nodup hnd (minByFirst_mem hmin)
  refine ⟨eid, me, ?_, heid_cached, hme, ?_, ?_⟩
  · rw [evict_least_used]
    have hempty : s.algorithm_cache.isEmpty = false := by
      rw [hcc]; rfl
    rw [hempty]
    simp only [Bool.false_eq_true, if_false, hmin, heid_cached, if_true]
  · intro k mk hkc hkm
    have := hle_all (k, mk) (dlookup_some_mem hkm)
    rw [evictKey, evictKey] at this
    simp only [heid_cached, hkc] at this
    simp [pairLE] at this
    exact this
  · obtain ⟨pre, suf, heq, hpre⟩ := minByFirst_split hmin
    refine ⟨pre, suf, heq, ?_⟩
    intro q hq hqc
    have := hpre q hq
    rw [evictKey, evictKey] at this
    simp only [heid_cached, hqc] at this
    simp [pairLE] at this
    exact this

/-! ### Loader invariant preservation -/

theorem loaderInv_init (n : Nat) : LoaderInv n (initLoader n) := by
  refine ⟨rfl, by simp [initLoader], ?_, ?_, by simp [initLoader, dkeys]⟩
  · intro k hk
    simp [initLoader, dcontains, dlookup] at hk
  · intro k hk
    simp [initLoader, dcontains, dlookup] at hk

theorem loaderInv_applyOp (n : Nat) (hn : 1 ≤ n) (op : LoaderOp)
    (s : LazyAlgorithmLoader) (h : LoaderInv n s) : LoaderInv n (applyOp op s) := by
  obtain ⟨hmax, hlen, hcm, hrm, hnd⟩ := h
  cases op with
  | reg id f m =>
    refine ⟨hmax, hlen, ?_, ?_, nodup_dkeys_dinsert id m hnd⟩
    · intro k hk
      exact (dcontains_dinsert_iff k id m _).2 (Or.inr (hcm k hk))
    · intro k hk
      rcases (dcontains_dinsert_iff k id f _).1 hk with hk1 | hk1
      · exact (dcontains_dinsert_iff k id m _).2 (Or.inl hk1)
      · exact (dcontains_dinsert_iff k id m _).2 (Or.inr (hrm k hk1))
  | load t id =>
    show LoaderInv n (load_algorithm t id s).state
    cases hc : dlookup id s.algorithm_cache with
    | some alg =>
      rw [load_algorithm_cache_hit hc]
      refine ⟨hmax, hlen, ?_, ?_, ?_⟩
      · intro k hk
        simp only [update_access_stats] at hk ⊢
        rw [dcontains_dmodify]
        exact hcm k hk
      · intro k hk
        simp only [update_access_stats] at hk ⊢
        rw [dcontains_dmodify]
        exact hrm k hk
      · simp only [update_access_stats]
        simpa [dkeys_dmodify]
    | none =>
      cases hr : dlookup id s.algorithm_registry with
      | none =>
        rw [load_algorithm_not_registered hc hr]
        exact ⟨hmax, hlen, hcm, hrm, hnd⟩
      | some f =>
        have hid_meta : dcontains id s.algorithm_metadata = true :=
          hrm id (by rw [dcontains, hr]; rfl)
        by_cases hcap : s.max_cache_size ≤ s.algorithm_cache.length
        · have hne : s.algorithm_cache ≠ [] := by
            intro h0
            rw [h0] at hcap
            simp [hmax] at hcap
            omega
          obtain ⟨eid, me, hev, heidc, _, _, _⟩ := evict_spec s hcm hnd hne
          have hlen1 : (derase eid s.algorithm_cache).length + 1
              = s.algorithm_cache.length := derase_length heidc
          cases hf : f t with
          | error e =>
            rw [load_algorithm_factory_error hc hr hf, if_pos hcap, hev]
            refine ⟨hmax, by simp; omega, ?_, hrm, hnd⟩
            intro k hk
            simp only at hk
            exact hcm k (dcontains_derase eid hk)
          | ok alg =>
            rw [load_algorithm_factory_ok hc hr hf, if_pos hcap, hev]
            refine ⟨hmax, ?_, ?_, ?_, ?_⟩
            · simp only [update_access_stats, length_dinsert]
              by_cases hcd : dcontains id (derase eid s.algorithm_cache) = true
              · simp [hcd]
                omega
              · simp [hcd]
                omega
            · intro k hk
              simp only [update_access_stats] at hk ⊢
              rw [dcontains_dmodify]
              rcases (dcontains_dinsert_iff k id alg _).1 hk with hk1 | hk1
              · rw [hk1]; exact hid_meta
              · exact hcm k (dcontains_derase eid hk1)
            · intro k hk
              simp only [update_access_stats] at hk ⊢
              rw [dcontains_dmodify]
              exact hrm k hk
            · simp only [update_access_stats]
              simpa [dkeys_dmodify]
        · cases hf : f t with
          | error e =>
            rw [load_algorithm_factory_error hc hr hf, if_neg hcap]
            exact ⟨hmax, hlen, hcm, hrm, hnd⟩
          | ok alg =>
            rw [load_algorithm_factory_ok hc hr hf, if_neg hcap]
            refine ⟨hmax, ?_, ?_, ?_, ?_⟩
            · simp only [update_access_stats, length_dinsert]
              by_cases hcd : dcontains id s.algorithm_cache = true
              · simp [hcd]
                omega
              · simp [hcd]
                rw [hmax] at hcap
                omega
            · intro k hk
              simp only [update_access_stats] at hk ⊢
              rw [dcontains_dmodify]
              rcases (dcontains_dinsert_iff k id alg _).1 hk with hk1 | hk1
              · rw [hk1]; exact hid_meta
              · exact hcm k hk1
            · intro k hk
              simp only [update_access_stats] at hk ⊢
              rw [dcontains_dmodify]
              exact hrm k hk
            · simp only [update_access_stats]
              simpa [dkeys_dmodify]

theorem loaderInv_applyOps (n : Nat) (hn : 1 ≤ n) (ops : List LoaderOp)
    (s : LazyAlgorithmLoader) (h : LoaderInv n s) : LoaderInv n (applyOps ops s) := by
  induction ops generalizing s with
  | nil => exact h
  | cons op rest ih =>
    simp only [applyOps, List.foldl_cons]
    exact ih (applyOp op s) (loaderInv_applyOp n hn op s h)

/-! ### Eviction log connection -/

theorem evict_log_shape (s : LazyAlgorithmLoader) :
    (evict_least_used s).2 = [] ∨
    ∃ e, (evict_least_used s).2 = [LogEvent.evicted e] := by
  rw [evict_least_used]
  by_cases h : s.algorithm_cache.isEmpty = true
  · rw [if_pos h]
    exact Or.inl rfl
  · rw [if_neg h]
    cases hm : minByFirst pairLE (evictKey s.algorithm_cache) s.algorithm_metadata with
    | none => exact Or.inl rfl
    | some p =>
      by_cases hp : dcontains p.1 s.algorithm_cache = true
      · exact Or.inr ⟨p.1, by simp [hp]⟩
      · exact Or.inl (by simp [hp])

theorem evicted_in_load_log {t : Nat} {id eid : String} {s : LazyAlgorithmLoader}
    (h : LogEvent.evicted eid ∈ (load_algorithm t id s).log) :
    (evict_least_used s).2 = [LogEvent.evicted eid] ∧
    s.algorithm_cache ≠ [] ∧
    s.max_cache_size ≤ s.algorithm_cache.length := by
  cases hc : dlookup id s.algorithm_cache with
  | some alg =>
    rw [load_algorithm_cache_hit hc] at h
    simp at h
  | none =>
    cases hr : dlookup id s.algorithm_registry with
    | none =>
      rw [load_algorithm_not_registered hc hr] at h
      simp at h
    | some f =>
      have hmain : (if s.max_cache_size ≤ s.algorithm_cache.length
          then evict_least_used s else (s, [])).2 ++ [LogEvent.loadFailure id "?"] = []
          ∨ True := Or.inr trivial
      by_cases hcap : s.max_cache_size ≤ s.algorithm_cache.length
      · have hmem : LogEvent.evicted eid ∈ (evict_least_used s).2 := by
          cases hf : f t with
          | error e =>
            rw [load_algorithm_factory_error hc hr hf, if_pos hcap] at h
            simp only [List.mem_append, List.mem_singleton] at h
            rcases h with h | h
            · exact h
            · exact absurd h (by simp)
          | ok alg =>
            rw [load_algorithm_factory_ok hc hr hf, if_pos hcap] at h
            simp only [List.mem_append, List.mem_singleton] at h
            rcases h with h | h
            · exact h
            · exact absurd h (by simp)
        rcases evict_log_shape s with hsh | ⟨e, hsh⟩
        · rw [hsh] at hmem
          simp at hmem
        · rw [hsh] at hmem
          simp at hmem
          rw [hsh, hmem]
          refine ⟨rfl, ?_, hcap⟩
          intro h0
          rw [evict_least_used] at hsh
          rw [h0] at hsh
          simp at hsh
      · cases hf : f t with
        | error e =>
          rw [load_algorithm_factory_error hc hr hf, if_neg hcap] at h
          simp at h
        | ok alg =>
          rw [load_algorithm_factory_ok hc hr hf, if_neg hcap] at h
          simp at h

/-! ### Claim C3 -/

/-- C3 counterexample: with configured capacity 0, registering and loading
one algorithm leaves one cached instance, so the cache size exceeds the
configured capacity. -/
theorem cache_capacity_zero_counterexample :
    (applyOps c3Ops (initLoader 0)).max_cache_size = 0 ∧
    (applyOps c3Ops (initLoader 0)).algorithm_cache.length = 1 := by
  exact ⟨rfl, rfl⟩

/-- C3 (amended): for a configured capacity of at least 1, after any
sequence of register and load operations from a fresh loader the number of
cached instances never exceeds the capacity; and whenever a load triggers an
eviction (observable as an eviction log event), the evicted entry was a
cached entry whose last-used timestamp is minimal among all currently
cached entries. With capacity 0 the bound fails (see the counterexample):
the code first evicts from an already-empty cache and then inserts, leaving
one cached entry. -/
theorem cache_capacity_and_lru_eviction (n : Nat) (hn : 1 ≤ n)
    (ops : List LoaderOp) :
    ((applyOps ops (initLoader n)).algorithm_cache.length ≤ n) ∧
    (∀ (t : Nat) (id eid : String),
      LogEvent.evicted eid ∈ (load_algorithm t id (applyOps ops (initLoader n))).log →
      ∃ me,
        dcontains eid (applyOps ops (initLoader n)).algorithm_cache = true ∧
        dlookup eid (applyOps ops (initLoader n)).algorithm_metadata = some me ∧
        ∀ k mk, dcontains k (applyOps ops (initLoader n)).algorithm_cache = true →
          dlookup k (applyOps ops (initLoader n)).algorithm_metadata = some mk →
          me.last_used ≤ mk.last_used) := by
  have hinv := loaderInv_applyOps n hn ops (initLoader n) (loaderInv_init n)
  obtain ⟨hmax, hlen, hcm, hrm, hnd⟩ := hinv
  refine ⟨hlen, ?_⟩
  intro t id eid h
  obtain ⟨hlog, hne, _⟩ := evicted_in_load_log h
  obtain ⟨eid1, me, hev, heidc, hme, hminle, _⟩ :=
    evict_spec (applyOps ops (initLoader n)) hcm hnd hne
  have heq : eid1 = eid := by
    rw [hev] at hlog
    simpa using hlog
  subst heq
  exact ⟨me, heidc, hme, hminle⟩

/-- Witness for C3 (amended): replaying the capacity-2 scenario `c9Ops`,
the cache size is within the bound, and the eviction triggered by loading
`C` at time 6 evicts a cached entry of minimal last-used timestamp. -/
theorem cache_capacity_and_lru_eviction_witness :
    ((applyOps c9Ops (initLoader 2)).algorithm_cache.length ≤ 2) ∧
    (∃ me,
      dcontains "A" (applyOps c9Ops (initLoader 2)).algorithm_cache = true ∧
      dlookup "A" (applyOps c9Ops (initLoader 2)).algorithm_metadata = some me ∧
      ∀ k mk, dcontains k (applyOps c9Ops (initLoader 2)).algorithm_cache = true →
        dlookup k (applyOps c9Ops (initLoader 2)).algorithm_metadata = some mk →
        me.last_used ≤ mk.last_used) :=
  ⟨(cache_capacity_and_lru_eviction 2 (by decide) c9Ops).1,
   (cache_capacity_and_lru_eviction 2 (by decide) c9Ops).2 6 "C" "A" (by decide)⟩

/-! ### Claim C9 -/

/-- C9 counterexample: in the state reached by `c9Ops` (capacity 2), the
cached entries are exactly `A` and `B`, both with last-used timestamp 5 —
a tie at the oldest timestamp — and `A` has use count 3 while `B` has use
count 1; yet the eviction triggered by loading `C` evicts `A`, the entry
with the *higher* use count, because the code breaks ties by metadata
insertion order and never consults the use count. -/
theorem evict_tie_break_counterexample :
    dkeys c9State.algorithm_cache = ["A", "B"] ∧
    (dlookup "A" c9State.algorithm_metadata).map AlgorithmMetadata.last_used = some 5 ∧
    (dlookup "B" c9State.algorithm_metadata).map AlgorithmMetadata.last_used = some 5 ∧
    (dlookup "A" c9State.algorithm_metadata).map AlgorithmMetadata.usage_count = some 3 ∧
    (dlookup "B" c9State.algorithm_metadata).map AlgorithmMetadata.usage_count = some 1 ∧
    (load_algorithm 6 "C" c9State).log = [LogEvent.evicted "A", LogEvent.loaded "C"] ∧
    dcontains "A" (load_algorithm 6 "C" c9State).state.algorithm_cache = false ∧
    dcontains "B" (load_algorithm 6 "C" c9State).state.algorithm_cache = true := by
  exact ⟨rfl, rfl, rfl, rfl, rfl, rfl, rfl, rfl⟩

/-- C9 (amended): when an eviction is triggered and several cached entries
share the oldest last-used timestamp, the entry evicted is the one among
them appearing first in the metadata dictionary's insertion (registration)
order — the use count plays no role: the evicted entry is cached, its
last-used timestamp is minimal among cached entries, and every cached entry
strictly preceding it in the metadata order has a strictly larger last-used
timestamp. -/
theorem evict_tie_break_registration_order (n : Nat) (hn : 1 ≤ n)
    (ops : List LoaderOp) (t : Nat) (id eid : String)
    (h : LogEvent.evicted eid ∈ (load_algorithm t id (applyOps ops (initLoader n))).log) :
    ∃ me pre suf,
      dcontains eid (applyOps ops (initLoader n)).algorithm_cache = true ∧
      dlookup eid (applyOps ops (initLoader n)).algorithm_metadata = some me ∧
      (applyOps ops (initLoader n)).algorithm_metadata = pre ++ (eid, me) :: suf ∧
      (∀ k mk, dcontains k (applyOps ops (initLoader n)).algorithm_cache = true →
        dlookup k (applyOps ops (initLoader n)).algorithm_metadata = some mk →
        me.last_used ≤ mk.last_used) ∧
      (∀ q ∈ pre, dcontains q.1 (applyOps ops (initLoader n)).algorithm_cache = true →
        me.last_used < q.2.last_used) := by
  have hinv := loaderInv_applyOps n hn ops (initLoader n) (loaderInv_init n)
  obtain ⟨hmax, hlen, hcm, hrm, hnd⟩ := hinv
  obtain ⟨hlog, hne, _⟩ := evicted_in_load_log h
  obtain ⟨eid1, me, hev, heidc, hme, hminle, pre, suf, heq, hpre⟩ :=
    evict_spec (applyOps ops (initLoader n)) hcm hnd hne
  have heq1 : eid1 = eid := by
    rw [hev] at hlog
    simpa using hlog
  subst heq1
  exact ⟨me, pre, suf, heidc, hme, heq, hminle, hpre⟩

/-- Witness for C9 (amended): in the capacity-2 scenario the eviction
triggered by loading `C` at time 6 evicts `A`: `A` is cached with minimal
last-used timestamp, and it precedes every tied cached entry in metadata
order. -/
theorem evict_tie_break_registration_order_witness :
    ∃ me pre suf,
      dcontains "A" (applyOps c9Ops (initLoader 2)).algorithm_cache = true ∧
      dlookup "A" (applyOps c9Ops (initLoader 2)).algorithm_metadata = some me ∧
      (applyOps c9Ops (initLoader 2)).algorithm_metadata = pre ++ ("A", me) :: suf ∧
      (∀ k mk, dcontains k (applyOps c9Ops (initLoader 2)).algorithm_cache = true →
        dlookup k (applyOps c9Ops (initLoader 2)).algorithm_metadata = some mk →
        me.last_used ≤ mk.last_used) ∧
      (∀ q ∈ pre, dcontains q.1 (applyOps c9Ops (initLoader 2)).algorithm_cache = true →
        me.last_used < q.2.last_used) :=
  evict_tie_break_registration_order 2 (by decide) c9Ops 6 "C" "A" (by decide)

/-! ### Loader state bookkeeping lemmas for claims C5 and C6 -/

theorem update_access_stats_cache (t : Nat) (id : String) (s : LazyAlgorithmLoader) :
    (update_access_stats t id s).algorithm_cache = s.algorithm_cache := rfl

theorem update_access_stats_registry (t : Nat) (id : String) (s : LazyAlgorithmLoader) :
    (update_access_stats t id s).algorithm_registry = s.algorithm_registry := rfl

theorem evict_fields (s : LazyAlgorithmLoader) :
    (evict_least_used s).1.max_cache_size = s.max_cache_size ∧
    (evict_least_used s).1.algorithm_metadata = s.algorithm_metadata ∧
    (evict_least_used s).1.algorithm_registry = s.algorithm_registry := by
  rw [evict_least_used]
  by_cases h : s.algorithm_cache.isEmpty = true
  · simp [h]
  · simp only [h]
    cases hm : minByFirst pairLE (evictKey s.algorithm_cache) s.algorithm_metadata with
    | none => simp
    | some p =>
      by_cases hp : dcontains p.1 s.algorithm_cache = true
      · simp [hp]
      · simp [hp]

theorem dlookup_evict_none {id : String} {s : LazyAlgorithmLoader}
    (h : dlookup id s.algorithm_cache = none) :
    dlookup id (evict_least_used s).1.algorithm_cache = none := by
  rw [evict_least_used]
  by_cases he : s.algorithm_cache.isEmpty = true
  · simp [he, h]
  · simp only [he]
    cases hm : minByFirst pairLE (evictKey s.algorithm_cache) s.algorithm_metadata with
    | none => simpa using h
    | some p =>
      by_cases hp : dcontains p.1 s.algorithm_cache = true
      · simp only [hp]
        simp only [Bool.false_eq_true, if_false, if_true]
        exact dlookup_derase_none p.1 h
      · simpa [hp] using h

/-! ### Claim C5 -/

/-- C5: a load of a never-registered id fails by returning `None` with a
`NotRegistered` log record; a load of a registered id whose factory raises
fails by returning `None` with a `LoadFailure` record wrapping the factory's
error — the two failure modes are distinguishable by their log records (a
`NotRegistered` record never appears in the factory-failure case); in the
factory-failure case the id is not added to the cache and remains
registered, and a later load of the same id invokes the factory again — if
that retry succeeds the instance is returned and cached. -/
theorem load_failure_taxonomy (t t2 : Nat) (id : String) (s : LazyAlgorithmLoader)
    (hmiss : dlookup id s.algorithm_cache = none) :
    (dlookup id s.algorithm_registry = none →
      load_algorithm t id s
        = { result := none, state := s, log := [LogEvent.notRegistered id] }) ∧
    (∀ f e, dlookup id s.algorithm_registry = some f → f t = .error e →
      (load_algorithm t id s).result = none ∧
      ((load_algorithm t id s).log).getLast? = some (LogEvent.loadFailure id e) ∧
      LogEvent.notRegistered id ∉ (load_algorithm t id s).log ∧
      dlookup id (load_algorithm t id s).state.algorithm_cache = none ∧
      dlookup id (load_algorithm t id s).state.algorithm_registry = some f ∧
      (∀ alg, f t2 = .ok alg →
        (load_algorithm t2 id (load_algorithm t id s).state).result = some alg ∧
        dlookup id
          (load_algorithm t2 id (load_algorithm t id s).state).state.algorithm_cache
          = some alg)) := by
  constructor
  · intro hreg
    exact load_algorithm_not_registered hmiss hreg
  · intro f e hreg hfe
    rw [load_algorithm_factory_error hmiss hreg hfe]
    have hcache1 : dlookup id
        (if s.max_cache_size ≤ s.algorithm_cache.length
          then evict_least_used s else (s, [])).1.algorithm_cache = none := by
      by_cases hcap : s.max_cache_size ≤ s.algorithm_cache.length
      · rw [if_pos hcap]
        exact dlookup_evict_none hmiss
      · rw [if_neg hcap]
        exact hmiss
    have hreg1 : dlookup id
        (if s.max_cache_size ≤ s.algorithm_cache.length
          then evict_least_used s else (s, [])).1.algorithm_registry = some f := by
      by_cases hcap : s.max_cache_size ≤ s.algorithm_cache.length
      · rw [if_pos hcap, (evict_fields s).2.2]
        exact hreg
      · rw [if_neg hcap]
        exact hreg
    refine ⟨rfl, by simp, ?_, hcache1, hreg1, ?_⟩
    · simp only [List.mem_append, List.mem_singleton]
      intro hmem
      rcases hmem with hmem | hmem
      · by_cases hcap : s.max_cache_size ≤ s.algorithm_cache.length
        · rw [if_pos hcap] at hmem
          rcases evict_log_shape s with hsh | ⟨e1, hsh⟩
          · rw [hsh] at hmem
            simp at hmem
          · rw [hsh] at hmem
            simp at hmem
        · rw [if_neg hcap] at hmem
          simp at hmem
      · exact absurd hmem (by simp)
    · intro alg halg
      rw [load_algorithm_factory_ok hcache1 hreg1 halg]
      refine ⟨rfl, ?_⟩
      simp only [update_access_stats_cache]
      exact dlookup_dinsert_self id alg _

/-- Witness for C5: in `c5Loader`, id `N` is unregistered and loading it
yields the `NotRegistered` record; id `B` is registered with a factory that
raises at time 0 ("cold start") and succeeds at time 1 — the failed load
returns `None` with a trailing `LoadFailure` record, leaves `B` uncached
and registered, and the retry at time 1 returns the instance and caches
it. -/
theorem load_failure_taxonomy_witness :
    (load_algorithm 0 "N" c5Loader
      = { result := none, state := c5Loader, log := [LogEvent.notRegistered "N"] }) ∧
    (load_algorithm 0 "B" c5Loader).result = none ∧
    ((load_algorithm 0 "B" c5Loader).log).getLast?
      = some (LogEvent.loadFailure "B" "cold start") ∧
    LogEvent.notRegistered "B" ∉ (load_algorithm 0 "B" c5Loader).log ∧
    dlookup "B" (load_algorithm 0 "B" c5Loader).state.algorithm_cache = none ∧
    dlookup "B" (load_algorithm 0 "B" c5Loader).state.algorithm_registry
      = some (flakyFactory (algConstStr "b")) ∧
    (load_algorithm 1 "B" (load_algorithm 0 "B" c5Loader).state).result
      = some (algConstStr "b") ∧
    dlookup "B"
      (load_algorithm 1 "B" (load_algorithm 0 "B" c5Loader).state).state.algorithm_cache
      = some (algConstStr "b") := by
  have hN := (load_failure_taxonomy 0 1 "N" c5Loader rfl).1 rfl
  have hB := (load_failure_taxonomy 0 1 "B" c5Loader rfl).2
    (flakyFactory (algConstStr "b")) "cold start" rfl rfl
  have hRetry := hB.2.2.2.2.2 (algConstStr "b") rfl
  exact ⟨hN, hB.1, hB.2.1, hB.2.2.1, hB.2.2.2.1, hB.2.2.2.2.1, hRetry.1, hRetry.2⟩

/-! ### Claim C6 -/

/-- C6: for a registered id (one with a metadata record), if a load returns
an instance, an immediately following load returns the *same* instance (it
is served from the cache), and the two loads together advance the id's use
count by exactly two (each load stamps the id's metadata once). -/
theorem load_load_cache_identity (t1 t2 : Nat) (id : String)
    (s : LazyAlgorithmLoader) (m : AlgorithmMetadata) (v : Algorithm)
    (hm : dlookup id s.algorithm_metadata = some m)
    (h1 : (load_algorithm t1 id s).result = some v) :
    (load_algorithm t2 id (load_algorithm t1 id s).state).result = some v ∧
    dlookup id
      ((load_algorithm t2 id (load_algorithm t1 id s).state).state).algorithm_metadata
      = some (touchMetadata t2 (touchMetadata t1 m)) ∧
    (touchMetadata t2 (touchMetadata t1 m)).usage_count = m.usage_count + 2 := by
  have hfinal : ∀ (s1 : LazyAlgorithmLoader),
      dlookup id s1.algorithm_cache = some v →
      dlookup id s1.algorithm_metadata = some (touchMetadata t1 m) →
      (load_algorithm t2 id s1).result = some v ∧
      dlookup id (load_algorithm t2 id s1).state.algorithm_metadata
        = some (touchMetadata t2 (touchMetadata t1 m)) := by
    intro s1 hc1 hm1
    rw [load_algorithm_cache_hit hc1]
    refine ⟨rfl, ?_⟩
    simp only [update_access_stats]
    rw [dlookup_dmodify_self, hm1]
    rfl
  cases hc : dlookup id s.algorithm_cache with
  | some alg =>
    rw [load_algorithm_cache_hit hc] at h1
    simp at h1
    subst h1
    have hstep := hfinal (update_access_stats t1 id s)
      (by rw [update_access_stats_cache]; exact hc)
      (by simp only [update_access_stats]; rw [dlookup_dmodify_self, hm]; rfl)
    rw [load_algorithm_cache_hit hc]
    exact ⟨hstep.1, hstep.2, rfl⟩
  | none =>
    cases hr : dlookup id s.algorithm_registry with
    | none =>
      rw [load_algorithm_not_registered hc hr] at h1
      simp at h1
    | some f =>
      cases hf : f t1 with
      | error e =>
        rw [load_algorithm_factory_error hc hr hf] at h1
        simp at h1
      | ok alg =>
        rw [load_algorithm_factory_ok hc hr hf] at h1
        simp at h1
        subst h1
        have hmeta_e : (if s.max_cache_size ≤ s.algorithm_cache.length
            then evict_least_used s else (s, [])).1.algorithm_metadata
            = s.algorithm_metadata := by
          by_cases hcap : s.max_cache_size ≤ s.algorithm_cache.length
          · rw [if_pos hcap]
            exact (evict_fields s).2.1
          · rw [if_neg hcap]
        have hstep := hfinal
          (load_algorithm t1 id s).state
          (by
            rw [load_algorithm_factory_ok hc hr hf]
            simp only [update_access_stats_cache]
            exact dlookup_dinsert_self id alg _)
          (by
            rw [load_algorithm_factory_ok hc hr hf]
            simp only [update_access_stats]
            rw [dlookup_dmodify_self]
            simp only [hmeta_e]
            rw [hm]
            rfl)
        exact ⟨hstep.1, hstep.2, rfl⟩

/-- Witness for C6: loading the registered id `B` of `c5Loader` twice at
time 1 returns the same instance both times and leaves its use count at
0 + 2. -/
theorem load_load_cache_identity_witness :
    (load_algorithm 1 "B" (load_algorithm 1 "B" c5Loader).state).result
      = some (algConstStr "b") ∧
    dlookup "B"
      ((load_algorithm 1 "B" (load_algorithm 1 "B" c5Loader).state).state).algorithm_metadata
      = some (touchMetadata 1 (touchMetadata 1 (mkMeta "B" 0))) ∧
    (touchMetadata 1 (touchMetadata 1 (mkMeta "B" 0))).usage_count
      = (mkMeta "B" 0).usage_count + 2 :=
  load_load_cache_identity 1 1 "B" c5Loader (mkMeta "B" 0) (algConstStr "b") rfl rfl

/-! ### Claim C7 -/

/-- C7 counterexample: the monitor stores percentage-scale samples, not a
normalized signal — after one monitor tick in the psutil-less fallback mode
(CPU 50.0, memory 60.0), the vertex's load factor is (50+60)/2 = 55, which
is not in the interval [0,1]; so the claim as stated fails. -/
theorem load_factor_not_normalized :
    (dlookup "v" c7After.vertices).map VertexNode.load_factor
      = some (((50 : ℚ) + 60) / 2) ∧
    ¬ (((50 : ℚ) + 60) / 2 ≤ 1) := by
  refine ⟨rfl, ?_⟩
  norm_num

/-- C7 (amended): the load factor written by the resource-monitoring loop
is the mean of the CPU and memory *percentages*; it remains in the
percentage range [0,100] for all samples in [0,100] (including the
fallback sample 50/60 used when psutil is unavailable), but it is not
normalized to [0,1] (see the counterexample). -/
theorem load_factor_percent_range (st : VertexOrchestratorState)
    (sample : Option (ℚ × ℚ))
    (hs : ∀ c m, sample = some (c, m) → 0 ≤ c ∧ c ≤ 100 ∧ 0 ≤ m ∧ m ≤ 100) :
    ∀ (k : String) (node : VertexNode),
      dlookup k (monitor_tick sample st).vertices = some node →
      0 ≤ node.load_factor ∧ node.load_factor ≤ 100 := by
  intro k node hlk
  have hmem := dlookup_some_mem hlk
  simp only [monitor_tick] at hmem
  rcases List.mem_map.1 hmem with ⟨q, _, hq⟩
  have hlf : node.load_factor
      = ((update_metrics sample st.resource_monitor).cpu_usage
          + (update_metrics sample st.resource_monitor).memory_usage) / 2 := by
    have := congrArg Prod.snd hq
    simp at this
    rw [← this]
  rw [hlf]
  cases sample with
  | none =>
    simp only [update_metrics]
    norm_num
  | some cm =>
    obtain ⟨c, m⟩ := cm
    obtain ⟨hc0, hc1, hm0, hm1⟩ := hs c m rfl
    simp only [update_metrics]
    constructor
    · linarith
    · linarith

/-- Witness for C7 (amended): after a tick sampling CPU 10% and memory 20%
over a single-vertex state, the stored load factor (10+20)/2 lies in
[0,100]. -/
theorem load_factor_percent_range_witness :
    0 ≤ c7WitnessNode.load_factor ∧ c7WitnessNode.load_factor ≤ 100 :=
  load_factor_percent_range c8Before (some (10, 20))
    (by
      intro c m h
      simp at h
      obtain ⟨hc, hm⟩ := h
      subst hc
      subst hm
      exact ⟨by decide, by decide, by decide, by decide⟩)
    "v" c7WitnessNode rfl

/-! ### Claim C8 -/

/-- C8 counterexample: `create_vertex` performs no existence check — after
creating vertex `v` with capacity 5, creating `v` again with capacity 7
does not fail and silently replaces the stored node; so the claim as
stated fails. -/
theorem create_vertex_overwrites :
    dlookup "v" c8Before.vertices
      = some { vertex_id := "v", max_capacity := 5 } ∧
    dlookup "v" c8After.vertices
      = some { vertex_id := "v", max_capacity := 7 } ∧
    ({ vertex_id := "v", max_capacity := 7 } : VertexNode)
      ≠ { vertex_id := "v", max_capacity := 5 } := by
  refine ⟨rfl, rfl, ?_⟩
  intro h
  have : (7 : Nat) = 5 := congrArg VertexNode.max_capacity h
  simp at this

/-- C8 (amended): `create_vertex` registers a fresh node under the given id
unconditionally and never fails; when a vertex with that id already exists
it is silently replaced by the fresh node (the existing vertex's state is
lost). -/
theorem create_vertex_replaces (st : VertexOrchestratorState) (id : String)
    (cap : Nat) :
    (create_vertex id cap st).1 = { vertex_id := id, max_capacity := cap } ∧
    dlookup id (create_vertex id cap st).2.vertices
      = some { vertex_id := id, max_capacity := cap } := by
  refine ⟨rfl, ?_⟩
  exact dlookup_dinsert_self id _ st.vertices

/-! ### Claim C10 -/

/-- C10: `create_vertex` accepts capacity 0; automatic vertex selection
divides each vertex's active-task count by its capacity, so a task
submission with no vertex id raises `ZeroDivisionError` whenever some
existing vertex has capacity 0, and succeeds (enqueues) whenever every
existing vertex has positive capacity (an empty topology gets a default
vertex of capacity 10). -/
theorem capacity_zero_breaks_selection (st : VertexOrchestratorState)
    (task_id algorithm_id : String) (data : Value)
    (priority : AlgorithmPriority) (t : Nat) :
    (∀ (st2 : VertexOrchestratorState) (id : String),
      dlookup id (create_vertex id 0 st2).2.vertices
        = some { vertex_id := id, max_capacity := 0 }) ∧
    (st.vertices ≠ [] → (∃ p ∈ st.vertices, p.2.max_capacity = 0) →
      execute_task_enqueue task_id algorithm_id data priority none t st
        = .error .zeroDivision) ∧
    ((∀ p ∈ st.vertices, 0 < p.2.max_capacity) →
      ∃ st1, execute_task_enqueue task_id algorithm_id data priority none t st
        = .ok st1) := by
  refine ⟨?_, ?_, ?_⟩
  · intro st2 id
    exact dlookup_dinsert_self id _ st2.vertices
  · intro hne hz
    have hempty : st.vertices.isEmpty = false := by
      cases hv : st.vertices with
      | nil => exact absurd hv hne
      | cons a l => rfl
    have hany : st.vertices.any (fun p => p.2.max_capacity = 0) = true := by
      rw [List.any_eq_true]
      obtain ⟨p, hp, hp0⟩ := hz
      exact ⟨p, hp, by simp [hp0]⟩
    simp [execute_task_enqueue, select_optimal_vertex, hempty, hany]
  · intro hpos
    cases he : execute_task_enqueue task_id algorithm_id data priority none t st with
    | ok st1 => exact ⟨st1, rfl⟩
    | error err =>
      exfalso
      cases hv : st.vertices with
      | nil =>
        rw [execute_task_enqueue, select_optimal_vertex] at he
        simp [hv] at he
      | cons a l =>
        have hempty : st.vertices.isEmpty = false := by rw [hv]; rfl
        have hany : st.vertices.any (fun p => p.2.max_capacity = 0) = false := by
          rw [List.any_eq_false]
          intro p hp
          have := hpos p hp
          simp
          omega
        obtain ⟨q, hq⟩ : ∃ q, minByFirst ratLE (fun p => selectionKey p.2)
            st.vertices = some q := by
          cases hmf : minByFirst ratLE (fun p => selectionKey p.2) st.vertices with
          | none =>
            have := (minByFirst_eq_none_iff ratLE (fun p => selectionKey p.2)
              st.vertices).1 hmf
            rw [hv] at this
            simp at this
          | some q => exact ⟨q, rfl⟩
        rw [execute_task_enqueue, select_optimal_vertex] at he
        simp [hempty, hany, hq] at he

/-- Witness for C10: in the concrete state holding vertex `v` (capacity 10)
and vertex `z` (capacity 0), submitting a task without a vertex id raises
the division-by-zero error; in the state holding only `v` (capacity 5) the
same submission enqueues successfully; and `create_vertex` accepts
capacity 0. -/
theorem capacity_zero_breaks_selection_witness :
    (dlookup "z" (create_vertex "z" 0 c8Before).2.vertices
      = some { vertex_id := "z", max_capacity := 0 }) ∧
    (execute_task_enqueue "t1" "alg" (Value.num 0) .medium none 0 c10State
      = .error .zeroDivision) ∧
    (∃ st1, execute_task_enqueue "t1" "alg" (Value.num 0) .medium none 0 c8Before
      = .ok st1) :=
  ⟨(capacity_zero_breaks_selection c10State "t1" "alg" (Value.num 0) .medium 0).1
      c8Before "z",
   (capacity_zero_breaks_selection c10State "t1" "alg" (Value.num 0) .medium 0).2.1
      (by decide) (by decide),
   (capacity_zero_breaks_selection c8Before "t1" "alg" (Value.num 0) .medium 0).2.2
      (by decide)⟩

end VertexOrchestration
